import Mathlib

/-!
Verification of the lethe.txt anonymization engine.

This file shallowly embeds the core of the repository (validators and
extractors, entity detection, the anonymizer's substitution and reversal,
the date generator, and the password-protected mapping vault) and proves
or refutes the specification claims about it.

Texts are modelled as `List Char`.  Python's `str.replace` and
`re.sub(re.escape(..), .., IGNORECASE)` are modelled by the leftmost,
non-overlapping replace-all function `rep` (with a case-insensitivity
flag).  Randomness (faker names, random digits, random day offsets) is
modelled by explicit oracle streams, so every pipeline function is a pure
function of its inputs.  The external cryptography library (Fernet +
PBKDF2) is modelled as a parameter structure `AECipher` carrying the
documented contract of an authenticated encryption scheme.
-/

set_option linter.unusedVariables false

abbrev Str := List Char

/-- Case folding used to model Python's case-insensitive regex matching. -/
def foldc (c : Char) : Char := c.toLower

/-- Character comparison, case-insensitive when `ci` is set. -/
def ciEqChar (ci : Bool) (a b : Char) : Bool :=
  if ci then foldc a == foldc b else a == b

/-- Does the pattern match at the start of the string (pattern first)? -/
def matchAt (ci : Bool) : Str → Str → Bool
  | [], _ => true
  | _ :: _, [] => false
  | a :: p, b :: s => ciEqChar ci a b && matchAt ci p s

/-- Fuelled worker for leftmost non-overlapping replace-all. -/
def repGo (ci : Bool) (o r : Str) : Nat → Str → Str
  | _, [] => []
  | 0, s => s
  | f + 1, c :: s =>
    if matchAt ci o (c :: s) then r ++ repGo ci o r f ((c :: s).drop o.length)
    else c :: repGo ci o r f s

/-- Replace every (leftmost, non-overlapping) occurrence of `o` by `r` in `s`;
models Python `str.replace` (`ci = false`) and
`re.sub(re.escape(o), r, s, re.IGNORECASE)` (`ci = true`).
An empty pattern is treated as matching nowhere. -/
def rep (ci : Bool) (o r s : Str) : Str :=
  if o = [] then s else repGo ci o r s.length s

/-- `true` iff the pattern `o` matches at no position of `s`. -/
def noMatchIn (ci : Bool) (o : Str) : Str → Bool
  | [] => true
  | c :: s => !matchAt ci o (c :: s) && noMatchIn ci o s

/-- Whole-string case-insensitive equality. -/
def ciStrEq (a b : Str) : Bool := a.length == b.length && matchAt true a b

/-! ## Validators (src/core/validators.py) -/

def digitVal (c : Char) : Nat := c.toNat - 48

/-- Checksum validation on the 11 digit values of a CPF (tax ID):
reject non-11-digit input, reject all-equal digits, check both
modulo-11 weighted check digits.  Mirrors `validate_cpf`. -/
def cpfCheck : List Nat → Bool
  | [a, b, c, d, e, f, g, h, i, j, k] =>
    let allEq := a == b && b == c && c == d && d == e && e == f &&
                 f == g && g == h && h == i && i == j && j == k
    let r1 := (a*10 + b*9 + c*8 + d*7 + e*6 + f*5 + g*4 + h*3 + i*2) % 11
    let dv1 := if r1 < 2 then 0 else 11 - r1
    let r2 := (a*11 + b*10 + c*9 + d*8 + e*7 + f*6 + g*5 + h*4 + i*3 + j*2) % 11
    let dv2 := if r2 < 2 then 0 else 11 - r2
    !allEq && (j == dv1) && (k == dv2)
  | _ => false

/-- `validate_cpf`: strip non-digits then run the checksum test. -/
def validate_cpf (s : Str) : Bool :=
  cpfCheck ((s.filter Char.isDigit).map digitVal)

/-- First CPF check digit computed from the 9 base digits. -/
def cpfDig1 : List Nat → Nat
  | [a, b, c, d, e, f, g, h, i] =>
    let r := (a*10 + b*9 + c*8 + d*7 + e*6 + f*5 + g*4 + h*3 + i*2) % 11
    if r < 2 then 0 else 11 - r
  | _ => 0

/-- Second CPF check digit computed from the first 10 digits. -/
def cpfDig2 : List Nat → Nat
  | [a, b, c, d, e, f, g, h, i, j] =>
    let r := (a*11 + b*10 + c*9 + d*8 + e*7 + f*6 + g*5 + h*4 + i*3 + j*2) % 11
    if r < 2 then 0 else 11 - r
  | _ => 0

/-- Format 11 digit values as `NNN.NNN.NNN-CC`. -/
def formatCpf : List Nat → Str
  | [a, b, c, d, e, f, g, h, i, j, k] =>
    [Nat.digitChar a, Nat.digitChar b, Nat.digitChar c, '.',
     Nat.digitChar d, Nat.digitChar e, Nat.digitChar f, '.',
     Nat.digitChar g, Nat.digitChar h, Nat.digitChar i, '-',
     Nat.digitChar j, Nat.digitChar k]
  | _ => []

/-- `generate_valid_cpf`: the 9 random base digits are the argument
(`random.randint(0, 9)` nine times); the two check digits are computed and
the result formatted as `NNN.NNN.NNN-CC`. -/
def generate_valid_cpf (ds : List Nat) : Str :=
  let d10 := cpfDig1 ds
  let d11 := cpfDig2 (ds ++ [d10])
  formatCpf (ds ++ [d10, d11])

/-- Characters kept by RG cleaning (digits and the letter X/x). -/
def rgKeep (c : Char) : Bool := c.isDigit || c == 'X' || c == 'x'

/-- `validate_rg`: strip everything but digits and X/x, accept length 7..9. -/
def validate_rg (s : Str) : Bool :=
  let cl := s.filter rgKeep
  decide (7 ≤ cl.length) && decide (cl.length ≤ 9)

/-- The population `random.choice` draws the last RG character from. -/
def rgLastChoices : List Char :=
  ['0', '1', '2', '3', '4', '5', '6', '7', '8', '9', 'X']

/-- `generate_valid_rg`: 8 random digits (the list argument) and a random
final character, formatted `NN.NNN.NNN-C`. -/
def generate_valid_rg : List Nat → Char → Str
  | [a, b, c, d, e, f, g, h], last =>
    [Nat.digitChar a, Nat.digitChar b, '.',
     Nat.digitChar c, Nat.digitChar d, Nat.digitChar e, '.',
     Nat.digitChar f, Nat.digitChar g, Nat.digitChar h, '-', last]
  | _, _ => []

/-! ## Regex scanning (re.finditer on the source's fixed patterns) -/

/-- Pattern `\d{3}\.\d{3}\.\d{3}-\d{2}` anchored at the start of the string. -/
def matchCpfPunct : Str → Option Nat
  | a :: b :: c :: p1 :: d :: e :: f :: p2 :: g :: h :: i :: m :: j :: k :: _ =>
    if a.isDigit && b.isDigit && c.isDigit && p1 == '.' &&
       d.isDigit && e.isDigit && f.isDigit && p2 == '.' &&
       g.isDigit && h.isDigit && i.isDigit && m == '-' &&
       j.isDigit && k.isDigit then some 14 else none
  | _ => none

/-- Pattern `\d{11}` anchored at the start of the string. -/
def matchBare11 : Str → Option Nat
  | a :: b :: c :: d :: e :: f :: g :: h :: i :: j :: k :: _ =>
    if a.isDigit && b.isDigit && c.isDigit && d.isDigit && e.isDigit &&
       f.isDigit && g.isDigit && h.isDigit && i.isDigit && j.isDigit &&
       k.isDigit then some 11 else none
  | _ => none

/-- Pattern `\d{2}\.\d{3}\.\d{3}-[\dXx]` anchored at the start. -/
def matchRgPunct : Str → Option Nat
  | a :: b :: p1 :: c :: d :: e :: p2 :: f :: g :: h :: m :: x :: _ =>
    if a.isDigit && b.isDigit && p1 == '.' && c.isDigit && d.isDigit &&
       e.isDigit && p2 == '.' && f.isDigit && g.isDigit && h.isDigit &&
       m == '-' && rgKeep x then some 12 else none
  | _ => none

/-- Two-digit alternative of `\d{1,2}\.\d{3}\.\d{3}` anchored at the start. -/
def matchRg2 : Str → Option Nat
  | a :: b :: p1 :: c :: d :: e :: p2 :: f :: g :: h :: _ =>
    if a.isDigit && b.isDigit && p1 == '.' && c.isDigit && d.isDigit &&
       e.isDigit && p2 == '.' && f.isDigit && g.isDigit && h.isDigit
    then some 10 else none
  | _ => none

/-- One-digit alternative of `\d{1,2}\.\d{3}\.\d{3}` anchored at the start. -/
def matchRg1 : Str → Option Nat
  | a :: p1 :: b :: c :: d :: p2 :: e :: f :: g :: _ =>
    if a.isDigit && p1 == '.' && b.isDigit && c.isDigit && d.isDigit &&
       p2 == '.' && e.isDigit && f.isDigit && g.isDigit
    then some 9 else none
  | _ => none

/-- Greedy `\d{1,2}\.\d{3}\.\d{3}`: try two leading digits, then one. -/
def matchRgNoCheck (s : Str) : Option Nat :=
  match matchRg2 s with
  | some n => some n
  | none => matchRg1 s

/-- Fuelled `re.finditer`: scan left to right, record non-overlapping
matches with their positions, advance past each match. -/
def findMatchesGo (mf : Str → Option Nat) : Nat → Nat → Str → List (Str × Nat × Nat)
  | 0, _, _ => []
  | _ + 1, _, [] => []
  | fuel + 1, pos, c :: s =>
    match mf (c :: s) with
    | some n =>
      if n == 0 then findMatchesGo mf fuel (pos + 1) s
      else ((c :: s).take n, pos, pos + n) :: findMatchesGo mf fuel (pos + n) ((c :: s).drop n)
    | none => findMatchesGo mf fuel (pos + 1) s

def findMatches (mf : Str → Option Nat) (s : Str) : List (Str × Nat × Nat) :=
  findMatchesGo mf s.length 0 s

/-- Digits-only normalization (`re.sub(r'\D', '', cpf)`). -/
def normDigits (s : Str) : Str := s.filter Char.isDigit

/-- Deduplicate by normalized value, keeping the first hit in list order. -/
def dedupGo : List Str → List (Str × Nat × Nat) → List (Str × Nat × Nat)
  | _, [] => []
  | seen, e :: rest =>
    if seen.contains (normDigits e.1) then dedupGo seen rest
    else e :: dedupGo (normDigits e.1 :: seen) rest

/-- `extract_cpfs`: scan the punctuated pattern, then the bare pattern,
keep checksum-valid matches, then deduplicate by normalized digits. -/
def extract_cpfs (text : Str) : List (Str × Nat × Nat) :=
  dedupGo []
    (((findMatches matchCpfPunct text).filter fun e => validate_cpf e.1) ++
     ((findMatches matchBare11 text).filter fun e => validate_cpf e.1))

/-- `extract_rgs`: scan both RG patterns, keep format-valid matches,
no deduplication. -/
def extract_rgs (text : Str) : List (Str × Nat × Nat) :=
  ((findMatches matchRgPunct text).filter fun e => validate_rg e.1) ++
  ((findMatches matchRgNoCheck text).filter fun e => validate_rg e.1)

/-! ## Dates -/

def isLeap (y : Nat) : Bool := (y % 4 == 0 && y % 100 != 0) || y % 400 == 0

def monthLen (leap : Bool) (m : Nat) : Nat :=
  if m == 2 then (if leap then 29 else 28)
  else if m == 4 || m == 6 || m == 9 || m == 11 then 30 else 31

/-- Date pattern `\d{2}S\d{2}S\d{4}` (for separator `S`) anchored at the start. -/
def matchDateSep (sep : Char) : Str → Option Nat
  | a :: b :: s1 :: c :: d :: s2 :: e :: f :: g :: h :: _ =>
    if a.isDigit && b.isDigit && s1 == sep && c.isDigit && d.isDigit &&
       s2 == sep && e.isDigit && f.isDigit && g.isDigit && h.isDigit
    then some 10 else none
  | _ => none

/-- Strict `datetime.strptime` on a 10-character match: day/month/year split,
calendar validity (month 1..12, day within the month, year ≥ 1). -/
def parseDateParts (sep : Char) : Str → Option (Nat × Nat × Nat)
  | [a, b, s1, c, d, s2, e, f, g, h] =>
    let dd := digitVal a * 10 + digitVal b
    let mm := digitVal c * 10 + digitVal d
    let yy := digitVal e * 1000 + digitVal f * 100 + digitVal g * 10 + digitVal h
    if (s1 == sep) && (s2 == sep) && decide (1 ≤ mm) && decide (mm ≤ 12) &&
       decide (1 ≤ dd) && decide (dd ≤ monthLen (isLeap yy) mm) && decide (1 ≤ yy)
    then some (dd, mm, yy) else none
  | _ => none

/-- One date pattern's contribution to `extract_birth_dates`: matches that
parse and whose implied age lies in 0..120. -/
def dateEntries (year_now : Nat) (sep : Char) (text : Str) : List (Str × Nat × Nat) :=
  (findMatches (matchDateSep sep) text).filterMap fun e =>
    match parseDateParts sep e.1 with
    | some (_, _, yy) =>
      if decide (yy ≤ year_now) && decide (year_now - yy ≤ 120) then some e else none
    | none => none

/-- `extract_birth_dates`: the three patterns scanned in order `/`, `-`, `.`;
`year_now` models `datetime.now().year`. -/
def extract_birth_dates (year_now : Nat) (text : Str) : List (Str × Nat × Nat) :=
  dateEntries year_now '/' text ++ dateEntries year_now '-' text ++
  dateEntries year_now '.' text

/-! ## Fake birth-date generation (`Anonymizer._generate_adult_date`) -/

def daysInYear (y : Nat) : Nat := if isLeap y then 366 else 365

/-- Walk whole years forward from `(y, dayOffset)`. -/
def yearDoyGo : Nat → Nat → Nat → Nat × Nat
  | 0, y, k => (y, k)
  | f + 1, y, k =>
    if k < daysInYear y then (y, k) else yearDoyGo f (y + 1) (k - daysInYear y)

def monthLengths (leap : Bool) : List Nat :=
  [31, if leap then 29 else 28, 31, 30, 31, 30, 31, 31, 30, 31, 30, 31]

/-- Turn a day-of-year offset into (month, day). -/
def mdGo : Nat → List Nat → Nat → Nat × Nat
  | m, [], d => (m, d + 1)
  | m, len :: rest, d => if d < len then (m, d + 1) else mdGo (m + 1) rest (d - len)

/-- `datetime(1950, 1, 1) + timedelta(days = k)` as (year, month, day). -/
def dateOfOffset (k : Nat) : Nat × Nat × Nat :=
  let yd := yearDoyGo 60 1950 k
  let md := mdGo 1 (monthLengths (isLeap yd.1)) yd.2
  (yd.1, md.1, md.2)

/-- Total days in the `n` consecutive years starting at `y`. -/
def sumDays : Nat → Nat → Nat
  | _, 0 => 0
  | y, n + 1 => daysInYear y + sumDays (y + 1) n

/-- `(datetime(2006,12,31) - datetime(1950,1,1)).days`. -/
def adultDelta : Nat := 20818

def pad2 (n : Nat) : Str := [Nat.digitChar (n / 10), Nat.digitChar (n % 10)]

def year4 (n : Nat) : Str :=
  [Nat.digitChar (n / 1000), Nat.digitChar (n / 100 % 10),
   Nat.digitChar (n / 10 % 10), Nat.digitChar (n % 10)]

/-- `strftime('%d S %m S %Y')` for a (year, month, day) triple. -/
def fmtDate (sep : Char) (ymd : Nat × Nat × Nat) : Str :=
  pad2 ymd.2.2 ++ [sep] ++ pad2 ymd.2.1 ++ [sep] ++ year4 ymd.1

/-- Separator selection from `_generate_adult_date`: `/` if present,
else `-` if present, else `.`. -/
def dateSepOf (orig : Str) : Char :=
  if orig.contains '/' then '/' else if orig.contains '-' then '-' else '.'

/-- `_generate_adult_date`: `k` models `random.randint(0, delta.days)`;
the original only determines the output format. -/
def generateAdultDate (k : Nat) (orig : Str) : Str :=
  fmtDate (dateSepOf orig) (dateOfOffset k)

/-! ## Entity detection (src/core/entity_detector.py) -/

/-- Python `str.strip()`. -/
def trimStr (s : Str) : Str :=
  ((s.dropWhile Char.isWhitespace).reverse.dropWhile Char.isWhitespace).reverse

/-- Deduplicate strings keeping the first occurrence. -/
def dedupStrs : List Str → List Str → List Str
  | _, [] => []
  | seen, s :: rest =>
    if seen.contains s then dedupStrs seen rest
    else s :: dedupStrs (s :: seen) rest

/-- `detect_persons`: the spaCy person spans are an external capability and
enter as the `raw` parameter; the source trims each, drops empties, and
deduplicates by exact text keeping the first occurrence. -/
def detect_persons (raw : List Str) : List Str :=
  dedupStrs [] ((raw.map trimStr).filter fun s => !s.isEmpty)

structure Entities where
  persons : List Str
  cpfs : List Str
  rgs : List Str
  dates : List Str
deriving DecidableEq

/-- `EntityDetector.detect_all` (entity texts; spans are bookkeeping only). -/
def detect_all (rawPersons : List Str) (year_now : Nat) (text : Str) : Entities :=
  ⟨detect_persons rawPersons,
   (extract_cpfs text).map fun e => e.1,
   (extract_rgs text).map fun e => e.1,
   (extract_birth_dates year_now text).map fun e => e.1⟩

/-! ## Anonymizer (src/core/anonymizer.py) -/

/-- The four-category mapping, each an insertion-ordered association list
(Python dict) from original value to replacement. -/
structure MappingL where
  persons : List (Str × Str)
  cpfs : List (Str × Str)
  rgs : List (Str × Str)
  dates : List (Str × Str)
deriving DecidableEq

/-- `Anonymizer.__init__` starts with an empty mapping. -/
def initMapping : MappingL := ⟨[], [], [], []⟩

/-- Association-list lookup (first match). -/
def lookupA : List (Str × Str) → Str → Option Str
  | [], _ => none
  | (k, v) :: rest, key => if k == key then some v else lookupA rest key

/-- Oracle streams standing in for the random sources: faker names,
the nine random CPF digits, the eight random RG digits plus final
character, and the random day offset for dates. -/
structure Gens where
  person : Nat → Str
  cpfDigits : Nat → List Nat
  rgDigits : Nat → List Nat
  rgLast : Nat → Char
  dateDays : Nat → Nat

/-- Add one category's entities to its map: originals already present keep
their replacement, new originals are appended with a fresh oracle value. -/
def addCat (mk : Nat → Str → Str) : List Str → List (Str × Str) × Nat → List (Str × Str) × Nat
  | [], acc => acc
  | e :: rest, (m, k) =>
    match lookupA m e with
    | some _ => addCat mk rest (m, k)
    | none => addCat mk rest (m ++ [(e, mk k e)], k + 1)

/-- `Anonymizer.generate_replacements` over the current mapping state. -/
def generate_replacements (st : MappingL) (es : Entities) (g : Gens) : MappingL :=
  { persons := (addCat (fun k _ => g.person k) es.persons (st.persons, 0)).1
    cpfs := (addCat (fun k _ => generate_valid_cpf (g.cpfDigits k)) es.cpfs (st.cpfs, 0)).1
    rgs := (addCat (fun k _ => generate_valid_rg (g.rgDigits k) (g.rgLast k)) es.rgs (st.rgs, 0)).1
    dates := (addCat (fun k o => generateAdultDate (g.dateDays k) o) es.dates (st.dates, 0)).1 }

/-- Stable insertion for descending sort by key length. -/
def insSorted (x : Str × Str) : List (Str × Str) → List (Str × Str)
  | [] => [x]
  | y :: ys => if y.1.length ≤ x.1.length then x :: y :: ys else y :: insSorted x ys

/-- `sorted(mapping['persons'].items(), key=len(original), reverse=True)`
(stable descending sort). -/
def sortByLenDesc : List (Str × Str) → List (Str × Str)
  | [] => []
  | x :: xs => insSorted x (sortByLenDesc xs)

/-- Replace each pair's original by its replacement, in list order. -/
def applyCat (ci : Bool) (ps : List (Str × Str)) (t : Str) : Str :=
  ps.foldl (fun acc p => rep ci p.1 p.2 acc) t

/-- The substitution phase of `Anonymizer.anonymize`: persons longest
first (case-insensitive), then cpfs, rgs and dates (exact). -/
def applyMapping (m : MappingL) (t : Str) : Str :=
  applyCat false m.dates
    (applyCat false m.rgs
      (applyCat false m.cpfs
        (applyCat true (sortByLenDesc m.persons) t)))

/-- Replace each pair's replacement back by its original, in list order. -/
def revCat (ci : Bool) (ps : List (Str × Str)) (t : Str) : Str :=
  ps.foldl (fun acc p => rep ci p.2 p.1 acc) t

/-- `Anonymizer.reverse`: walks the mapping in insertion order
(persons case-insensitively, then cpfs, rgs, dates exactly). -/
def reverseMapping (m : MappingL) (t : Str) : Str :=
  revCat false m.dates (revCat false m.rgs (revCat false m.cpfs (revCat true m.persons t)))

/-- `Anonymizer.anonymize` with the instance mapping state `st` made
explicit: detect, extend the mapping, substitute. -/
def anonymize (rawPersons : List Str) (year_now : Nat) (g : Gens)
    (st : MappingL) (text : Str) : Str × MappingL :=
  let es := detect_all rawPersons year_now text
  let m := generate_replacements st es g
  (applyMapping m text, m)

/-! ## Mapping vault (src/core/crypto.py) -/

inductive CryptoError where
  | authError
  | corruptError
deriving DecidableEq

/-- The external cryptography primitives (Fernet authenticated encryption,
PBKDF2 key derivation) and JSON serialization, abstracted with their
documented contract: decryption inverts encryption under the same key,
only genuine ciphertexts decrypt, ciphertexts bind key and plaintext,
ciphertexts are nonempty, key derivation is collision-free in the
password, and deserialization inverts serialization. -/
structure AECipher (Key : Type) where
  enc : Key → Nat → List Nat → List Nat
  dec : Key → List Nat → Option (List Nat)
  kdf : Str → List Nat → Key
  ser : MappingL → List Nat
  deser : List Nat → Option MappingL
  enc_dec : ∀ k n d, dec k (enc k n d) = some d
  dec_auth : ∀ k b d, dec k b = some d → ∃ n, b = enc k n d
  enc_inj : ∀ k k' n n' d d', enc k n d = enc k' n' d' → k = k' ∧ d = d'
  enc_ne_nil : ∀ k n d, enc k n d ≠ []
  kdf_inj : ∀ p p' s, kdf p s = kdf p' s → p = p'
  deser_ser : ∀ m, deser (ser m) = some m

/-- `encrypt_mapping`: random 16-byte salt (parameter), PBKDF2 key,
serialize, encrypt, output `salt ++ ciphertext`. -/
def encrypt_mapping {Key : Type} (C : AECipher Key) (salt : List Nat) (nonce : Nat)
    (m : MappingL) (pw : Str) : List Nat :=
  salt ++ C.enc (C.kdf pw salt) nonce (C.ser m)

/-- `decrypt_mapping`: split salt/ciphertext at byte 16, derive the key,
decrypt (InvalidToken becomes `authError`), deserialize (JSON failure
becomes `corruptError`). -/
def decrypt_mapping {Key : Type} (C : AECipher Key) (blob : List Nat)
    (pw : Str) : Except CryptoError MappingL :=
  match C.dec (C.kdf pw (blob.take 16)) (blob.drop 16) with
  | none => .error .authError
  | some d =>
    match C.deser d with
    | some m => .ok m
    | none => .error .corruptError

/-! ## Segment states for the substitution round-trip proof -/

/-- An original/replacement pair tagged with its matching mode. -/
structure RPair where
  orig : Str
  repl : Str
  ci : Bool
deriving DecidableEq

/-- A text split into literal pieces separated by replacement blocks:
`(h, [(p₁, s₁), …])` denotes `h ++ p₁.repl ++ s₁ ++ …` after substitution
and `h ++ p₁.orig ++ s₁ ++ …` before. -/
def flatF (S : Str × List (RPair × Str)) : Str :=
  S.1 ++ (S.2.map fun b => b.1.repl ++ b.2).flatten

def flatG (S : Str × List (RPair × Str)) : Str :=
  S.1 ++ (S.2.map fun b => b.1.orig ++ b.2).flatten

/-- Split a literal piece at the matches of `o`: the head piece and the
trailing pieces of the newly created blocks. -/
def fwdSplitGo (ci : Bool) (o : Str) : Nat → Str → Str × List Str
  | _, [] => ([], [])
  | 0, s => (s, [])
  | f + 1, c :: s =>
    if matchAt ci o (c :: s) then
      let t := fwdSplitGo ci o f ((c :: s).drop o.length)
      ([], t.1 :: t.2)
    else
      let t := fwdSplitGo ci o f s
      (c :: t.1, t.2)

def fwdSplit (ci : Bool) (o s : Str) : Str × List Str :=
  fwdSplitGo ci o s.length s

/-- Head piece and trailing pieces joined with `x` between them. -/
def joinF (x : Str) (t : Str × List Str) : Str :=
  t.1 ++ (t.2.map fun s => x ++ s).flatten

/-- Apply one forward substitution step to a segment state. -/
def fwdStep (p : RPair) (S : Str × List (RPair × Str)) : Str × List (RPair × Str) :=
  let t0 := fwdSplit p.ci p.orig S.1
  (t0.1, (t0.2.map fun s => (p, s)) ++
    (S.2.map fun b =>
      let t := fwdSplit p.ci p.orig b.2
      (b.1, t.1) :: t.2.map fun s => (p, s)).flatten)

/-- Apply one reverse substitution step: blocks tagged `q` dissolve back
into literal text `q.orig`. -/
def revStep (q : RPair) : Str → List (RPair × Str) → Str × List (RPair × Str)
  | h, [] => (h, [])
  | h, (p, s) :: bs =>
    if p = q then revStep q (h ++ q.orig ++ s) bs
    else
      let t := revStep q s bs
      (h, (p, t.1) :: t.2)

/-- The mapping as a flat list of reverse-order pairs (insertion order:
persons, cpfs, rgs, dates). -/
def pairsOf (m : MappingL) : List RPair :=
  (m.persons.map fun p => ⟨p.1, p.2, true⟩) ++
  ((m.cpfs ++ m.rgs ++ m.dates).map fun p => ⟨p.1, p.2, false⟩)

/-- The mapping as the flat list of forward-order pairs (persons sorted
longest first, then cpfs, rgs, dates). -/
def pairsOfSorted (m : MappingL) : List RPair :=
  ((sortByLenDesc m.persons).map fun p => ⟨p.1, p.2, true⟩) ++
  ((m.cpfs ++ m.rgs ++ m.dates).map fun p => ⟨p.1, p.2, false⟩)

/-- Case-folded character-disjointness of two strings. -/
def foldsDisj (a b : Str) : Bool :=
  a.all fun c => !(b.any fun d => foldc c == foldc d)

/-- Every case-insensitive occurrence of `o` in `t` is an exact-case
occurrence (scanned over all suffix positions). -/
def ciExactGo (o : Str) : Str → Bool
  | [] => true
  | c :: s =>
    (!(matchAt true o (c :: s)) || ((c :: s).take o.length == o)) && ciExactGo o s

/-- Sufficient freshness conditions for the substitution round trip:
all originals and replacements nonempty; each replacement's case-folded
characters avoid the text, every original, and every other pair's
replacement; and every case-insensitive occurrence in the text of a
person original is exact-case. -/
def roundtripOK (t : Str) (m : MappingL) : Bool :=
  (pairsOf m).all fun p =>
    !p.orig.isEmpty && !p.repl.isEmpty && foldsDisj p.repl t &&
    ((pairsOf m).all fun q =>
      foldsDisj p.repl q.orig && (p == q || foldsDisj p.repl q.repl)) &&
    (!p.ci || ciExactGo p.orig t)

/-- The freshness conditions in propositional form, over a flat pair list. -/
def GoodPairs (t : Str) (Lr : List RPair) : Prop :=
  ∀ p ∈ Lr, p.orig ≠ [] ∧ p.repl ≠ [] ∧
    (∀ c ∈ p.repl, foldc c ∉ t.map foldc) ∧
    (∀ q ∈ Lr, (∀ c ∈ p.repl, foldc c ∉ q.orig.map foldc) ∧
      (p ≠ q → ∀ c ∈ p.repl, foldc c ∉ q.repl.map foldc)) ∧
    (p.ci = true → ∀ w, w <:+: t → matchAt true p.orig w = true →
      w.take p.orig.length = p.orig)

/-- Case-folded characters that may legitimately appear in literal pieces
during reversal: those of the text and of any original. -/
def allowedChars (t : Str) (Lr : List RPair) (c : Char) : Prop :=
  c ∈ t.map foldc ∨ ∃ p ∈ Lr, c ∈ p.orig.map foldc

/-! ## A concrete cipher satisfying the `AECipher` contract
(used to instantiate the conditional crypto theorems on concrete inputs) -/

def strEnc (s : Str) : List Nat := s.map Char.toNat

def strDec (l : List Nat) : Str := l.map Char.ofNat

def catEnc (l : List (Str × Str)) : List (List Nat × List Nat) :=
  l.map fun p => (strEnc p.1, strEnc p.2)

def catDec (l : List (List Nat × List Nat)) : List (Str × Str) :=
  l.map fun p => (strDec p.1, strDec p.2)

def mapEnc (m : MappingL) :
    List (List Nat × List Nat) × List (List Nat × List Nat) ×
    List (List Nat × List Nat) × List (List Nat × List Nat) :=
  (catEnc m.persons, catEnc m.cpfs, catEnc m.rgs, catEnc m.dates)

def mapDec (q : List (List Nat × List Nat) × List (List Nat × List Nat) ×
    List (List Nat × List Nat) × List (List Nat × List Nat)) : MappingL :=
  ⟨catDec q.1, catDec q.2.1, catDec q.2.2.1, catDec q.2.2.2⟩

/-- Header of a toy ciphertext: a self-delimiting encoding of the key. -/
def toyHdr (k : Str × List Nat) : List Nat :=
  k.1.length :: (k.1.map Char.toNat ++ k.2.length :: k.2)

def toyEnc (k : Str × List Nat) (n : Nat) (d : List Nat) : List Nat :=
  toyHdr k ++ d.length :: d

def toyDec (k : Str × List Nat) (b : List Nat) : Option (List Nat) :=
  if b.take (toyHdr k).length = toyHdr k then
    match b.drop (toyHdr k).length with
    | [] => none
    | dl :: dd => if dl = dd.length then some dd else none
  else none

def toySer (m : MappingL) : List Nat := [Encodable.encode (mapEnc m)]

def toyDeser (l : List Nat) : Option MappingL :=
  match l with
  | [n] => (Encodable.decode n).map mapDec
  | _ => none

/-- A toy instantiation of the authenticated-encryption contract, used by
the witnesses of the conditional vault theorems. -/
def toyCipher : AECipher (Str × List Nat) where
  enc := toyEnc
  dec := toyDec
  kdf := fun p s => (p, s)
  ser := toySer
  deser := toyDeser
  enc_dec := by
    intro k n d
    simp [toyDec, toyEnc]
  dec_auth := by
    intro k b d h
    refine ⟨0, ?_⟩
    unfold toyDec at h
    split_ifs at h with htake
    rcases hdrop : b.drop (toyHdr k).length with _ | ⟨dl, dd⟩
    · rw [hdrop] at h; exact absurd h (by simp)
    · rw [hdrop] at h
      have h' : (if dl = dd.length then some dd else none) = some d := h
      split_ifs at h' with hlen
      have hdd : dd = d := by injection h'
      have hb : b = b.take (toyHdr k).length ++ b.drop (toyHdr k).length :=
        (List.take_append_drop _ b).symm
      rw [hb, htake, hdrop, hdd, hlen, hdd]
      rfl
  enc_inj := by
    have hrt : ∀ s : Str, (s.map Char.toNat).map Char.ofNat = s := by
      intro s
      induction s with
      | nil => rfl
      | cons c t ih => simp [Char.ofNat_toNat, ih]
    intro k k' n n' d d' h
    unfold toyEnc toyHdr at h
    rw [List.cons_append, List.cons_append, List.append_assoc, List.append_assoc] at h
    have h1 : k.1.length = k'.1.length := by injection h
    have h2 : k.1.map Char.toNat ++ (k.2.length :: k.2 ++ d.length :: d) =
        k'.1.map Char.toNat ++ (k'.2.length :: k'.2 ++ d'.length :: d') := by
      injection h
    have hlen : (k.1.map Char.toNat).length = (k'.1.map Char.toNat).length := by
      simp [h1]
    obtain ⟨hmap, hrest⟩ := List.append_inj h2 hlen
    have hk1 : k.1 = k'.1 := by rw [← hrt k.1, ← hrt k'.1, hmap]
    rw [List.cons_append, List.cons_append] at hrest
    have h3 : k.2.length = k'.2.length := by injection hrest
    have h4 : k.2 ++ d.length :: d = k'.2 ++ d'.length :: d' := by injection hrest
    obtain ⟨hk2, hd⟩ := List.append_inj h4 h3
    have hd' : d = d' := by injection hd
    exact ⟨Prod.ext hk1 hk2, hd'⟩
  enc_ne_nil := by intro k n d; simp [toyEnc, toyHdr]
  kdf_inj := by
    intro p p' s h
    exact congrArg Prod.fst h
  deser_ser := by
    have hs : ∀ s : Str, strDec (strEnc s) = s := by
      intro s
      induction s with
      | nil => rfl
      | cons c t ih2 => simp [strDec, strEnc, Char.ofNat_toNat] at ih2 ⊢; exact ih2
    have hcat : ∀ l, catDec (catEnc l) = l := by
      intro l
      induction l with
      | nil => rfl
      | cons p rest ih =>
        show (strDec (strEnc p.1), strDec (strEnc p.2)) :: catDec (catEnc rest) = p :: rest
        rw [hs p.1, hs p.2, ih]
    intro m
    simp [toySer, toyDeser, Encodable.encodek, mapDec, mapEnc, hcat]

/-! ## Ancillary decidable notions used in claim statements -/

/-- The slice `text[s:e]`. -/
def sliceAt (t : Str) (s e : Nat) : Str := (t.drop s).take (e - s)

/-- All strings in the list pairwise distinct. -/
def pairwiseNe : List Str → Bool
  | [] => true
  | s :: rest => rest.all (fun x => !(x == s)) && pairwiseNe rest

/-- All strings in the list pairwise distinct up to case folding. -/
def pairwiseCiNe : List Str → Bool
  | [] => true
  | s :: rest => rest.all (fun x => !(ciStrEq x s)) && pairwiseCiNe rest

def allOrigs (m : MappingL) : List Str :=
  m.persons.map (fun p => p.1) ++ m.cpfs.map (fun p => p.1) ++
  m.rgs.map (fun p => p.1) ++ m.dates.map (fun p => p.1)

def allRepls (m : MappingL) : List Str :=
  m.persons.map (fun p => p.2) ++ m.cpfs.map (fun p => p.2) ++
  m.rgs.map (fun p => p.2) ++ m.dates.map (fun p => p.2)

/-- The claim's collision precondition: no two detected originals (across
categories, and no two person originals even up to case) coincide, and no
two originals receive the same encoded (replacement) form. -/
def noCollide (m : MappingL) : Bool :=
  pairwiseNe (allOrigs m) && pairwiseCiNe (m.persons.map fun p => p.1) &&
  pairwiseNe (allRepls m)

/-! ## Concrete scenario inputs used by witnesses and counterexamples -/

/-- An oracle draw whose person name is the fresh string `"Zq"`. -/
def oracleZq : Gens :=
  ⟨fun _ => "Zq".toList, fun _ => [], fun _ => [], fun _ => 'X', fun _ => 0⟩

/-- An oracle draw with empty person names (no persons are detected in the
scenarios that use it). -/
def emptyOracles : Gens :=
  ⟨fun _ => [], fun _ => [], fun _ => [], fun _ => 'X', fun _ => 0⟩

/-- A text containing a case variant of the single detected person name. -/
def caseVariantText : Str := "Maria Silva e MARIA SILVA".toList

/-- The pipeline mapping for `caseVariantText` with person detector output
`["Maria Silva"]` and the `"Zq"` oracle. -/
def caseVariantMapping : MappingL :=
  generate_replacements initMapping
    (detect_all ["Maria Silva".toList] 2026 caseVariantText) oracleZq

/-- A benign text for the round-trip witness. -/
def simpleText : Str := "Ana e Bob".toList

/-- Anonymizer run state left over from a previous document: one mapped date. -/
def staleState : MappingL :=
  ⟨[], [], [], [("15/03/1990".toList, "20/05/1980".toList)]⟩

/-- A text containing the same tax ID bare (first) and punctuated (second). -/
def mixedFormText : Str := "11144477735 e 111.444.777-35".toList

/-! # Theorems -/

/-! ## Matching lemmas -/

theorem ciEqChar_refl (ci : Bool) (c : Char) : ciEqChar ci c c = true := by
  cases ci <;> simp [ciEqChar]

theorem ciEqChar_foldc {ci : Bool} {a b : Char} (h : ciEqChar ci a b = true) :
    foldc b = foldc a := by
  cases ci
  · simp [ciEqChar] at h
    rw [h]
  · simp [ciEqChar] at h
    exact h.symm

theorem matchAt_refl (ci : Bool) (x y : Str) : matchAt ci x (x ++ y) = true := by
  induction x with
  | nil => rfl
  | cons a t ih => simp [matchAt, ciEqChar_refl, ih]

theorem matchAt_length {ci : Bool} {o s : Str} (h : matchAt ci o s = true) :
    o.length ≤ s.length := by
  induction o generalizing s with
  | nil => simp
  | cons a p ih =>
    cases s with
    | nil => exact absurd h (by simp [matchAt])
    | cons b t =>
      simp only [matchAt, Bool.and_eq_true] at h
      simpa using Nat.succ_le_succ (ih h.2)

theorem matchAt_append_left {ci : Bool} {o s : Str} (F : Str) (h : o.length ≤ s.length) :
    matchAt ci o (s ++ F) = matchAt ci o s := by
  induction o generalizing s with
  | nil => rfl
  | cons a p ih =>
    cases s with
    | nil => simp at h
    | cons b t =>
      have h' : p.length ≤ t.length := by simpa using h
      show (ciEqChar ci a b && matchAt ci p (t ++ F)) = (ciEqChar ci a b && matchAt ci p t)
      rw [ih h']

theorem matchAt_extend {ci : Bool} {o s : Str} (F : Str) (h : matchAt ci o s = true) :
    matchAt ci o (s ++ F) = true := by
  rw [matchAt_append_left F (matchAt_length h)]
  exact h

theorem matchAt_head {ci : Bool} {a : Char} {p : Str} {c : Char} {s : Str}
    (h : matchAt ci (a :: p) (c :: s) = true) : foldc c = foldc a := by
  simp only [matchAt, Bool.and_eq_true] at h
  exact ciEqChar_foldc h.1

theorem matchAt_cross {ci : Bool} {o s F : Str} {c : Char}
    (h : matchAt ci o (s ++ c :: F) = true) (hlt : s.length < o.length) :
    foldc c ∈ o.map foldc := by
  induction s generalizing o with
  | nil =>
    cases o with
    | nil => simp at hlt
    | cons a p =>
      have hc : foldc c = foldc a := matchAt_head h
      rw [hc]
      exact List.mem_map_of_mem foldc (by simp)
  | cons b t ih =>
    cases o with
    | nil => simp at hlt
    | cons a p =>
      have h2 : matchAt ci p (t ++ c :: F) = true := by
        simp only [List.cons_append, matchAt, Bool.and_eq_true] at h
        exact h.2
      have hlt2 : t.length < p.length := by simpa using hlt
      have := ih h2 hlt2
      simp only [List.map_cons, List.mem_cons]
      exact Or.inr this

theorem matchAt_take_exact {o s : Str} (h : matchAt false o s = true) :
    s.take o.length = o := by
  induction o generalizing s with
  | nil => rfl
  | cons a p ih =>
    cases s with
    | nil => exact absurd h (by simp [matchAt])
    | cons b t =>
      simp only [matchAt, ciEqChar, Bool.false_eq_true, if_false, Bool.and_eq_true,
        beq_iff_eq] at h
      show b :: t.take p.length = a :: p
      rw [← h.1, ih h.2]

/-! ## Replacement lemmas -/

theorem repGo_fuel (ci : Bool) (o r : Str) (ho : o ≠ []) :
    ∀ f f' s : _, s.length ≤ f → s.length ≤ f' →
      repGo ci o r f s = repGo ci o r f' s := by
  intro f
  induction f with
  | zero =>
    intro f' s hf hf'
    have hs : s = [] := List.eq_nil_of_length_eq_zero (Nat.le_zero.mp hf)
    subst hs
    cases f' <;> rfl
  | succ f ih =>
    intro f' s hf hf'
    cases s with
    | nil => cases f' <;> rfl
    | cons c t =>
      cases f' with
      | zero => simp at hf'
      | succ f'' =>
        have holen : 0 < o.length := List.length_pos.mpr ho
        show (if matchAt ci o (c :: t) then r ++ repGo ci o r f ((c :: t).drop o.length)
              else c :: repGo ci o r f t) =
             (if matchAt ci o (c :: t) then r ++ repGo ci o r f'' ((c :: t).drop o.length)
              else c :: repGo ci o r f'' t)
        by_cases hm : matchAt ci o (c :: t) = true
        · rw [if_pos hm, if_pos hm]
          have hd : ((c :: t).drop o.length).length ≤ f := by
            simp only [List.length_drop, List.length_cons]
            simp only [List.length_cons] at hf
            omega
          have hd' : ((c :: t).drop o.length).length ≤ f'' := by
            simp only [List.length_drop, List.length_cons]
            simp only [List.length_cons] at hf'
            omega
          rw [ih f'' _ hd hd']
        · rw [if_neg hm, if_neg hm]
          have ht : t.length ≤ f := by simpa using Nat.le_of_succ_le_succ (by simpa using hf)
          have ht' : t.length ≤ f'' := by simpa using Nat.le_of_succ_le_succ (by simpa using hf')
          rw [ih f'' _ ht ht']

theorem rep_nil (ci : Bool) (o r : Str) : rep ci o r [] = [] := by
  unfold rep
  split
  · rfl
  · rfl

theorem rep_match {ci : Bool} {o r s : Str} (ho : o ≠ []) (h : matchAt ci o s = true) :
    rep ci o r s = r ++ rep ci o r (s.drop o.length) := by
  cases s with
  | nil =>
    cases o with
    | nil => exact absurd rfl ho
    | cons a p => exact absurd h (by simp [matchAt])
  | cons c t =>
    have holen : 0 < o.length := List.length_pos.mpr ho
    unfold rep
    rw [if_neg ho, if_neg ho]
    show (if matchAt ci o (c :: t) then r ++ repGo ci o r t.length ((c :: t).drop o.length)
          else c :: repGo ci o r t.length t) = _
    rw [if_pos h]
    congr 1
    apply repGo_fuel ci o r ho
    · simp only [List.length_drop, List.length_cons]
      omega
    · exact Nat.le_refl _

theorem rep_nomatch {ci : Bool} {o r : Str} {c : Char} {t : Str} (ho : o ≠ [])
    (h : matchAt ci o (c :: t) = false) :
    rep ci o r (c :: t) = c :: rep ci o r t := by
  unfold rep
  rw [if_neg ho, if_neg ho]
  show (if matchAt ci o (c :: t) then r ++ repGo ci o r t.length ((c :: t).drop o.length)
        else c :: repGo ci o r t.length t) = _
  rw [if_neg (by rw [h]; exact Bool.false_ne_true)]

theorem rep_skip {ci : Bool} {o r : Str} (ho : o ≠ []) {s : Str} (F : Str)
    (h : ∀ c ∈ s, foldc c ∉ o.map foldc) :
    rep ci o r (s ++ F) = s ++ rep ci o r F := by
  induction s with
  | nil => rfl
  | cons c t ih =>
    have hm : matchAt ci o (c :: (t ++ F)) = false := by
      cases o with
      | nil => exact absurd rfl ho
      | cons a p =>
        cases hb : matchAt ci (a :: p) (c :: (t ++ F)) with
        | false => rfl
        | true =>
          have hf : foldc c = foldc a := matchAt_head hb
          have hmem : foldc c ∈ (a :: p).map foldc := by
            rw [hf]
            exact List.mem_map_of_mem foldc (by simp)
          exact absurd hmem (h c (by simp))
    rw [List.cons_append, rep_nomatch ho hm, ih fun x hx => h x (List.mem_cons_of_mem c hx)]
    rfl

theorem rep_noop {ci : Bool} {o r : Str} (ho : o ≠ []) {s : Str}
    (h : ∀ c ∈ s, foldc c ∉ o.map foldc) :
    rep ci o r s = s := by
  have := @rep_skip ci o r ho s [] h
  simpa [rep_nil] using this

theorem rep_block {ci : Bool} {o r : Str} (ho : o ≠ []) (F : Str) :
    rep ci o r (o ++ F) = r ++ rep ci o r F := by
  rw [rep_match ho (matchAt_refl ci o F)]
  congr 1
  congr 1
  simp

theorem rep_append_safe {ci : Bool} {o r : Str} (ho : o ≠ []) {s F : Str}
    (hF : ∀ c, F.head? = some c → foldc c ∉ o.map foldc) :
    rep ci o r (s ++ F) = rep ci o r s ++ rep ci o r F := by
  generalize hn : s.length = n
  induction n using Nat.strong_induction_on generalizing s with
  | _ n ih =>
    subst hn
    cases s with
    | nil => simp [rep_nil]
    | cons c t =>
      have holen : 0 < o.length := List.length_pos.mpr ho
      by_cases hm : matchAt ci o ((c :: t) ++ F) = true
      · have hle : o.length ≤ (c :: t).length := by
          by_contra hgt
          push_neg at hgt
          cases hF2 : F with
          | nil =>
            rw [hF2] at hm
            have := matchAt_length (by simpa using hm)
            omega
          | cons f0 F' =>
            rw [hF2] at hm
            have := matchAt_cross hm hgt
            exact absurd this (hF f0 (by rw [hF2]; rfl))
        have hms : matchAt ci o (c :: t) = true := by
          rw [← matchAt_append_left F hle]
          exact hm
        rw [rep_match ho hm, rep_match ho hms]
        have hdrop : ((c :: t) ++ F).drop o.length = (c :: t).drop o.length ++ F := by
          rw [List.drop_append_eq_append_drop]
          have : o.length - (c :: t).length = 0 := Nat.sub_eq_zero_of_le hle
          rw [this, List.drop_zero]
        rw [hdrop]
        have hlen : ((c :: t).drop o.length).length < (c :: t).length := by
          simp only [List.length_drop, List.length_cons]
          omega
        rw [ih _ hlen rfl]
        simp [List.append_assoc]
      · have hm' : matchAt ci o (c :: t) = false := by
          cases hb : matchAt ci o (c :: t) with
          | false => rfl
          | true => exact absurd (by simpa using matchAt_extend (s := c :: t) F hb) hm
        rw [List.cons_append, rep_nomatch ho (by simpa using hm), rep_nomatch ho hm']
        rw [List.cons_append]
        congr 1
        exact ih t.length (by simp) rfl

theorem rep_of_noMatch {ci : Bool} {o r s : Str} (ho : o ≠ [])
    (h : noMatchIn ci o s = true) : rep ci o r s = s := by
  induction s with
  | nil => exact rep_nil ci o r
  | cons c t ih =>
    simp only [noMatchIn, Bool.and_eq_true, Bool.not_eq_true'] at h
    rw [rep_nomatch ho h.1, ih h.2]

/-! ## Exact-case occurrence lemmas -/

theorem ciExactGo_suffix {o t : Str} (h : ciExactGo o t = true) :
    ∀ w, w <:+ t → matchAt true o w = true → w.take o.length = o := by
  induction t with
  | nil =>
    intro w hw hm
    have hwn : w = [] := List.suffix_nil.mp hw
    subst hwn
    cases o with
    | nil => rfl
    | cons a p => exact absurd hm (by simp [matchAt])
  | cons c s ih =>
    intro w hw hm
    simp only [ciExactGo, Bool.and_eq_true, Bool.or_eq_true, Bool.not_eq_true',
      beq_iff_eq] at h
    rcases List.suffix_cons_iff.mp hw with h1 | h2
    · subst h1
      rcases h.1 with hno | heq
      · rw [hm] at hno
        exact absurd hno (by simp)
      · exact heq
    · exact ih h.2 w h2 hm

theorem ciExactInfix {o t : Str} (h : ciExactGo o t = true) :
    ∀ w, w <:+: t → matchAt true o w = true → w.take o.length = o := by
  intro w hw hm
  obtain ⟨u, v, huv⟩ := hw
  have hsuf : w ++ v <:+ t := ⟨u, by rw [← List.append_assoc, huv]⟩
  have hm2 : matchAt true o (w ++ v) = true := matchAt_extend v hm
  have htake := ciExactGo_suffix h _ hsuf hm2
  have hle : o.length ≤ w.length := matchAt_length hm
  rw [List.take_append_eq_append_take, Nat.sub_eq_zero_of_le hle, List.take_zero,
    List.append_nil] at htake
  exact htake

/-! ## Forward split lemmas -/

theorem fwdSplitGo_fuel (ci : Bool) (o : Str) (ho : o ≠ []) :
    ∀ f f' s : _, s.length ≤ f → s.length ≤ f' →
      fwdSplitGo ci o f s = fwdSplitGo ci o f' s := by
  intro f
  induction f with
  | zero =>
    intro f' s hf hf'
    have hs : s = [] := List.eq_nil_of_length_eq_zero (Nat.le_zero.mp hf)
    subst hs
    cases f' <;> rfl
  | succ f ih =>
    intro f' s hf hf'
    cases s with
    | nil => cases f' <;> rfl
    | cons c t =>
      cases f' with
      | zero => simp at hf'
      | succ f'' =>
        have holen : 0 < o.length := List.length_pos.mpr ho
        show (if matchAt ci o (c :: t) then
                ([], (fwdSplitGo ci o f ((c :: t).drop o.length)).1 ::
                     (fwdSplitGo ci o f ((c :: t).drop o.length)).2)
              else ((c :: (fwdSplitGo ci o f t).1), (fwdSplitGo ci o f t).2)) =
             (if matchAt ci o (c :: t) then
                ([], (fwdSplitGo ci o f'' ((c :: t).drop o.length)).1 ::
                     (fwdSplitGo ci o f'' ((c :: t).drop o.length)).2)
              else ((c :: (fwdSplitGo ci o f'' t).1), (fwdSplitGo ci o f'' t).2))
        by_cases hm : matchAt ci o (c :: t) = true
        · rw [if_pos hm, if_pos hm]
          have hd : ((c :: t).drop o.length).length ≤ f := by
            simp only [List.length_drop, List.length_cons]
            simp only [List.length_cons] at hf
            omega
          have hd' : ((c :: t).drop o.length).length ≤ f'' := by
            simp only [List.length_drop, List.length_cons]
            simp only [List.length_cons] at hf'
            omega
          rw [ih f'' _ hd hd']
        · rw [if_neg hm, if_neg hm]
          have ht : t.length ≤ f := by simpa using Nat.le_of_succ_le_succ (by simpa using hf)
          have ht' : t.length ≤ f'' := by simpa using Nat.le_of_succ_le_succ (by simpa using hf')
          rw [ih f'' _ ht ht']

theorem fwdSplit_nil (ci : Bool) (o : Str) : fwdSplit ci o [] = ([], []) := rfl

theorem fwdSplit_match {ci : Bool} {o : Str} (ho : o ≠ []) {c : Char} {t : Str}
    (h : matchAt ci o (c :: t) = true) :
    fwdSplit ci o (c :: t) =
      ([], (fwdSplit ci o ((c :: t).drop o.length)).1 ::
           (fwdSplit ci o ((c :: t).drop o.length)).2) := by
  have holen : 0 < o.length := List.length_pos.mpr ho
  show (if matchAt ci o (c :: t) then
          ([], (fwdSplitGo ci o t.length ((c :: t).drop o.length)).1 ::
               (fwdSplitGo ci o t.length ((c :: t).drop o.length)).2)
        else ((c :: (fwdSplitGo ci o t.length t).1), (fwdSplitGo ci o t.length t).2)) = _
  rw [if_pos h]
  have := fwdSplitGo_fuel ci o ho t.length ((c :: t).drop o.length).length
    ((c :: t).drop o.length)
    (by simp only [List.length_drop, List.length_cons]; omega) (Nat.le_refl _)
  rw [this]
  rfl

theorem fwdSplit_nomatch {ci : Bool} {o : Str} (ho : o ≠ []) {c : Char} {t : Str}
    (h : matchAt ci o (c :: t) = false) :
    fwdSplit ci o (c :: t) = ((c :: (fwdSplit ci o t).1), (fwdSplit ci o t).2) := by
  show (if matchAt ci o (c :: t) then
          ([], (fwdSplitGo ci o t.length ((c :: t).drop o.length)).1 ::
               (fwdSplitGo ci o t.length ((c :: t).drop o.length)).2)
        else ((c :: (fwdSplitGo ci o t.length t).1), (fwdSplitGo ci o t.length t).2)) = _
  rw [if_neg (by rw [h]; exact Bool.false_ne_true)]
  rfl

theorem joinF_fwdSplit {ci : Bool} {o : Str} (r : Str) (ho : o ≠ []) (s : Str) :
    joinF r (fwdSplit ci o s) = rep ci o r s := by
  generalize hn : s.length = n
  induction n using Nat.strong_induction_on generalizing s with
  | _ n ih =>
    subst hn
    cases s with
    | nil => rw [fwdSplit_nil, rep_nil]; rfl
    | cons c t =>
      have holen : 0 < o.length := List.length_pos.mpr ho
      by_cases hm : matchAt ci o (c :: t) = true
      · rw [fwdSplit_match ho hm, rep_match ho hm]
        have hlt : ((c :: t).drop o.length).length < (c :: t).length := by
          simp only [List.length_drop, List.length_cons]
          omega
        have := ih _ hlt ((c :: t).drop o.length) rfl
        simp only [joinF, List.map_cons, List.flatten_cons, List.nil_append] at this ⊢
        rw [List.append_assoc, this]
      · have hm' : matchAt ci o (c :: t) = false := by
          cases hb : matchAt ci o (c :: t) with
          | false => rfl
          | true => exact absurd hb hm
        rw [fwdSplit_nomatch ho hm', rep_nomatch ho hm']
        have := ih t.length (by simp) t rfl
        simp only [joinF] at this ⊢
        rw [List.cons_append, this]

theorem joinG_fwdSplit {ci : Bool} {o : Str} (ho : o ≠ []) (s : Str)
    (hex : ∀ w, w <:+: s → matchAt ci o w = true → w.take o.length = o) :
    joinF o (fwdSplit ci o s) = s := by
  generalize hn : s.length = n
  induction n using Nat.strong_induction_on generalizing s with
  | _ n ih =>
    subst hn
    cases s with
    | nil => rw [fwdSplit_nil]; rfl
    | cons c t =>
      have holen : 0 < o.length := List.length_pos.mpr ho
      by_cases hm : matchAt ci o (c :: t) = true
      · rw [fwdSplit_match ho hm]
        have hlt : ((c :: t).drop o.length).length < (c :: t).length := by
          simp only [List.length_drop, List.length_cons]
          omega
        have hdropinf : (c :: t).drop o.length <:+: c :: t :=
          (List.drop_suffix o.length (c :: t)).isInfix
        have hexd : ∀ w, w <:+: (c :: t).drop o.length → matchAt ci o w = true →
            w.take o.length = o := fun w hw hmw => hex w (hw.trans hdropinf) hmw
        have hrec := ih _ hlt ((c :: t).drop o.length) hexd rfl
        have htake : (c :: t).take o.length = o :=
          hex (c :: t) (List.infix_refl _) hm
        simp only [joinF, List.map_cons, List.flatten_cons, List.nil_append] at hrec ⊢
        rw [List.append_assoc, hrec]
        conv_rhs => rw [← List.take_append_drop o.length (c :: t)]
        rw [htake]
      · have hm' : matchAt ci o (c :: t) = false := by
          cases hb : matchAt ci o (c :: t) with
          | false => rfl
          | true => exact absurd hb hm
        rw [fwdSplit_nomatch ho hm']
        have hexd : ∀ w, w <:+: t → matchAt ci o w = true → w.take o.length = o :=
          fun w hw hmw => hex w (hw.trans (List.tail_suffix (c :: t)).isInfix) hmw
        have hrec := ih t.length (by simp) t hexd rfl
        simp only [joinF] at hrec ⊢
        rw [List.cons_append, hrec]

theorem fwdSplit_head_front (ci : Bool) (o : Str) (ho : o ≠ []) (s : Str) :
    (fwdSplit ci o s).1 <+: s := by
  generalize hn : s.length = n
  induction n using Nat.strong_induction_on generalizing s with
  | _ n ih =>
    subst hn
    cases s with
    | nil => rw [fwdSplit_nil]
    | cons c t =>
      have holen : 0 < o.length := List.length_pos.mpr ho
      by_cases hm : matchAt ci o (c :: t) = true
      · rw [fwdSplit_match ho hm]
        exact List.nil_prefix
      · have hm' : matchAt ci o (c :: t) = false := by
          cases hb : matchAt ci o (c :: t) with
          | false => rfl
          | true => exact absurd hb hm
        rw [fwdSplit_nomatch ho hm']
        exact List.cons_prefix_cons.mpr ⟨rfl, ih t.length (by simp) t rfl⟩

theorem fwdSplit_pieces_within (ci : Bool) (o : Str) (ho : o ≠ []) (s : Str) :
    ∀ x ∈ (fwdSplit ci o s).2, x <:+: s := by
  generalize hn : s.length = n
  induction n using Nat.strong_induction_on generalizing s with
  | _ n ih =>
    subst hn
    cases s with
    | nil => rw [fwdSplit_nil]; intro x hx; exact absurd hx (by simp)
    | cons c t =>
      have holen : 0 < o.length := List.length_pos.mpr ho
      by_cases hm : matchAt ci o (c :: t) = true
      · rw [fwdSplit_match ho hm]
        intro x hx
        have hlt : ((c :: t).drop o.length).length < (c :: t).length := by
          simp only [List.length_drop, List.length_cons]
          omega
        have hdropinf : (c :: t).drop o.length <:+: c :: t :=
          (List.drop_suffix o.length (c :: t)).isInfix
        rcases List.mem_cons.mp hx with h1 | h2
        · subst h1
          exact ((fwdSplit_head_front ci o ho _).isInfix).trans hdropinf
        · exact (ih _ hlt _ rfl x h2).trans hdropinf
      · have hm' : matchAt ci o (c :: t) = false := by
          cases hb : matchAt ci o (c :: t) with
          | false => rfl
          | true => exact absurd hb hm
        rw [fwdSplit_nomatch ho hm']
        intro x hx
        exact (ih t.length (by simp) t rfl x hx).trans (List.tail_suffix (c :: t)).isInfix

/-! ## Segment-state lemmas -/

theorem flatF_nilb (h : Str) : flatF (h, []) = h := by simp [flatF]

theorem flatG_nilb (h : Str) : flatG (h, []) = h := by simp [flatG]

theorem flatF_cons (h : Str) (b : RPair × Str) (bs : List (RPair × Str)) :
    flatF (h, b :: bs) = h ++ (b.1.repl ++ flatF (b.2, bs)) := by
  simp [flatF, List.append_assoc]

theorem flatG_cons (h : Str) (b : RPair × Str) (bs : List (RPair × Str)) :
    flatG (h, b :: bs) = h ++ (b.1.orig ++ flatG (b.2, bs)) := by
  simp [flatG, List.append_assoc]

theorem flatF_append_blocks (h : Str) (bs1 bs2 : List (RPair × Str)) :
    flatF (h, bs1 ++ bs2) = flatF (h, bs1) ++ flatF ([], bs2) := by
  simp [flatF, List.append_assoc]

theorem flatG_append_blocks (h : Str) (bs1 bs2 : List (RPair × Str)) :
    flatG (h, bs1 ++ bs2) = flatG (h, bs1) ++ flatG ([], bs2) := by
  simp [flatG, List.append_assoc]

theorem map_pieces_repl (p : RPair) (l : List Str) :
    List.map (fun b => b.1.repl ++ b.2) (l.map fun s => (p, s)) =
      l.map fun s => p.repl ++ s := by
  induction l with
  | nil => rfl
  | cons s rest ih => simp only [List.map_cons, ih]

theorem map_pieces_orig (p : RPair) (l : List Str) :
    List.map (fun b => b.1.orig ++ b.2) (l.map fun s => (p, s)) =
      l.map fun s => p.orig ++ s := by
  induction l with
  | nil => rfl
  | cons s rest ih => simp only [List.map_cons, ih]

theorem flatF_pieces (p : RPair) (h : Str) (l : List Str) :
    flatF (h, l.map fun s => (p, s)) = joinF p.repl (h, l) := by
  simp only [flatF, joinF, map_pieces_repl]

theorem flatG_pieces (p : RPair) (h : Str) (l : List Str) :
    flatG (h, l.map fun s => (p, s)) = joinF p.orig (h, l) := by
  simp only [flatG, joinF, map_pieces_orig]

theorem fwdStep_nilb (p : RPair) (h : Str) :
    fwdStep p (h, []) =
      ((fwdSplit p.ci p.orig h).1,
       (fwdSplit p.ci p.orig h).2.map fun s => (p, s)) := by
  simp [fwdStep]

theorem fwdStep_cons (p : RPair) (h : Str) (q : RPair) (s : Str)
    (rest : List (RPair × Str)) :
    fwdStep p (h, (q, s) :: rest) =
      ((fwdSplit p.ci p.orig h).1,
       ((fwdSplit p.ci p.orig h).2.map fun s' => (p, s')) ++
         (q, (fwdStep p (s, rest)).1) :: (fwdStep p (s, rest)).2) := by
  simp [fwdStep]

theorem flatF_fwdStep (p : RPair) (ho : p.orig ≠ []) :
    ∀ (bs : List (RPair × Str)) (h : Str),
      (∀ b ∈ bs, b.1.repl ≠ [] ∧ ∀ c ∈ b.1.repl, foldc c ∉ p.orig.map foldc) →
      flatF (fwdStep p (h, bs)) = rep p.ci p.orig p.repl (flatF (h, bs)) := by
  intro bs
  induction bs with
  | nil =>
    intro h hb
    rw [fwdStep_nilb, flatF_pieces, joinF_fwdSplit p.repl ho h, flatF_nilb]
  | cons x rest ih =>
    intro h hb
    obtain ⟨q, s⟩ := x
    have hqr : q.repl ≠ [] := (hb (q, s) (by simp)).1
    have hqsafe : ∀ c ∈ q.repl, foldc c ∉ p.orig.map foldc := (hb (q, s) (by simp)).2
    rw [fwdStep_cons, flatF_append_blocks, flatF_pieces, joinF_fwdSplit p.repl ho h,
      flatF_cons, flatF_cons]
    have hF : ∀ c : Char, (q.repl ++ flatF (s, rest)).head? = some c →
        foldc c ∉ p.orig.map foldc := by
      intro c hc
      cases hqrl : q.repl with
      | nil => exact absurd hqrl hqr
      | cons r0 rr =>
        rw [hqrl] at hc
        simp only [List.cons_append, List.head?_cons, Option.some.injEq] at hc
        subst hc
        exact hqsafe r0 (by rw [hqrl]; simp)
    rw [rep_append_safe ho hF, rep_skip ho _ hqsafe,
      ih s fun b hbmem => hb b (List.mem_cons_of_mem _ hbmem)]
    simp [List.append_assoc]

theorem flatG_fwdStep (p : RPair) (ho : p.orig ≠ []) :
    ∀ (bs : List (RPair × Str)) (h : Str),
      (∀ w, w <:+: h → matchAt p.ci p.orig w = true → w.take p.orig.length = p.orig) →
      (∀ b ∈ bs, ∀ w, w <:+: b.2 → matchAt p.ci p.orig w = true →
        w.take p.orig.length = p.orig) →
      flatG (fwdStep p (h, bs)) = flatG (h, bs) := by
  intro bs
  induction bs with
  | nil =>
    intro h hexh hexb
    rw [fwdStep_nilb, flatG_pieces, joinG_fwdSplit ho h hexh, flatG_nilb]
  | cons x rest ih =>
    intro h hexh hexb
    obtain ⟨q, s⟩ := x
    rw [fwdStep_cons, flatG_append_blocks, flatG_pieces, joinG_fwdSplit ho h hexh,
      flatG_cons, flatG_cons,
      ih s (hexb (q, s) (by simp)) fun b hbmem => hexb b (List.mem_cons_of_mem _ hbmem)]
    simp

theorem fwdStep_block_mem (p : RPair) (ho : p.orig ≠ []) (h : Str)
    (bs : List (RPair × Str)) :
    ∀ b ∈ (fwdStep p (h, bs)).2,
      (b.1 = p ∨ ∃ b' ∈ bs, b.1 = b'.1) ∧ (b.2 <:+: h ∨ ∃ b' ∈ bs, b.2 <:+: b'.2) := by
  intro b hb
  simp only [fwdStep, List.mem_append, List.mem_map, List.mem_flatten] at hb
  rcases hb with ⟨s', hs', rfl⟩ | ⟨l, ⟨b', hb', rfl⟩, hmem⟩
  · exact ⟨Or.inl rfl, Or.inl (fwdSplit_pieces_within p.ci p.orig ho h s' hs')⟩
  · rcases List.mem_cons.mp hmem with hhead | hmem2
    · subst hhead
      exact ⟨Or.inr ⟨b', hb', rfl⟩,
        Or.inr ⟨b', hb', (fwdSplit_head_front p.ci p.orig ho b'.2).isInfix⟩⟩
    · obtain ⟨s', hs', rfl⟩ := List.mem_map.mp hmem2
      exact ⟨Or.inl rfl,
        Or.inr ⟨b', hb', fwdSplit_pieces_within p.ci p.orig ho b'.2 s' hs'⟩⟩

theorem fwdStep_head (p : RPair) (ho : p.orig ≠ []) (h : Str) (bs : List (RPair × Str)) :
    (fwdStep p (h, bs)).1 <+: h :=
  fwdSplit_head_front p.ci p.orig ho h

theorem revStep_acc (q : RPair) (a : Str) :
    ∀ (bs : List (RPair × Str)) (b : Str),
      revStep q (a ++ b) bs = (a ++ (revStep q b bs).1, (revStep q b bs).2) := by
  intro bs
  induction bs with
  | nil => intro b; rfl
  | cons x rest ih =>
    intro b
    obtain ⟨p, s⟩ := x
    by_cases hpq : p = q
    · simp only [revStep, if_pos hpq]
      rw [show (a ++ b) ++ q.orig ++ s = a ++ (b ++ q.orig ++ s) by
        simp [List.append_assoc]]
      exact ih (b ++ q.orig ++ s)
    · simp only [revStep, if_neg hpq]

theorem flatF_revStep (q : RPair) (hq : q.repl ≠ []) :
    ∀ (bs : List (RPair × Str)) (h : Str),
      (∀ c ∈ h, foldc c ∉ q.repl.map foldc) →
      (∀ b ∈ bs, (∀ c ∈ b.2, foldc c ∉ q.repl.map foldc) ∧
        (b.1 ≠ q → b.1.repl ≠ [] ∧ ∀ c ∈ b.1.repl, foldc c ∉ q.repl.map foldc)) →
      rep q.ci q.repl q.orig (flatF (h, bs)) = flatF (revStep q h bs) := by
  intro bs
  induction bs with
  | nil =>
    intro h hh hb
    rw [flatF_nilb, rep_noop hq hh]
    simp [revStep, flatF]
  | cons x rest ih =>
    intro h hh hb
    obtain ⟨p, s⟩ := x
    rw [flatF_cons, rep_skip hq _ hh]
    by_cases hpq : p = q
    · subst hpq
      rw [rep_block hq, ih s (hb (p, s) (by simp)).1
        fun b hbmem => hb b (List.mem_cons_of_mem _ hbmem)]
      have hunf : revStep p h ((p, s) :: rest) = revStep p (h ++ p.orig ++ s) rest := by
        simp [revStep]
      rw [hunf, revStep_acc p (h ++ p.orig) rest s]
      simp [flatF, List.append_assoc]
    · have hps := (hb (p, s) (by simp)).2 hpq
      rw [rep_skip hq _ hps.2, ih s (hb (p, s) (by simp)).1
        fun b hbmem => hb b (List.mem_cons_of_mem _ hbmem)]
      have hunf : revStep q h ((p, s) :: rest) =
          (h, (p, (revStep q s rest).1) :: (revStep q s rest).2) := by
        simp [revStep, hpq]
      rw [hunf, flatF_cons]

theorem flatG_revStep (q : RPair) :
    ∀ (bs : List (RPair × Str)) (h : Str),
      flatG (revStep q h bs) = flatG (h, bs) := by
  intro bs
  induction bs with
  | nil => intro h; rfl
  | cons x rest ih =>
    intro h
    obtain ⟨p, s⟩ := x
    by_cases hpq : p = q
    · simp only [revStep, if_pos hpq]
      rw [ih (h ++ q.orig ++ s), flatG_cons]
      subst hpq
      simp [flatG, List.append_assoc]
    · simp only [revStep, if_neg hpq]
      rw [flatG_cons, flatG_cons]
      congr 2
      exact ih s

theorem revStep_block_mem (q : RPair) :
    ∀ (bs : List (RPair × Str)) (h : Str) (b : RPair × Str),
      b ∈ (revStep q h bs).2 → b.1 ≠ q ∧ ∃ b' ∈ bs, b.1 = b'.1 := by
  intro bs
  induction bs with
  | nil => intro h b hb; exact absurd hb (by simp [revStep])
  | cons x rest ih =>
    intro h b hb
    obtain ⟨p, s⟩ := x
    by_cases hpq : p = q
    · simp only [revStep, if_pos hpq] at hb
      obtain ⟨hne, b', hb', heq⟩ := ih (h ++ q.orig ++ s) b hb
      exact ⟨hne, b', List.mem_cons_of_mem _ hb', heq⟩
    · simp only [revStep, if_neg hpq] at hb
      rcases List.mem_cons.mp hb with hhead | hmem
    -- the head block keeps its pair, the rest come from the recursion
      · subst hhead
        exact ⟨hpq, (p, s), by simp⟩
      · obtain ⟨hne, b', hb', heq⟩ := ih s b hmem
        exact ⟨hne, b', List.mem_cons_of_mem _ hb', heq⟩

theorem revStep_chars (q : RPair) (allowed : Char → Prop)
    (hq : ∀ c ∈ q.orig, allowed (foldc c)) :
    ∀ (bs : List (RPair × Str)) (h : Str),
      (∀ c ∈ h, allowed (foldc c)) →
      (∀ b ∈ bs, ∀ c ∈ b.2, allowed (foldc c)) →
      (∀ c ∈ (revStep q h bs).1, allowed (foldc c)) ∧
        (∀ b ∈ (revStep q h bs).2, ∀ c ∈ b.2, allowed (foldc c)) := by
  intro bs
  induction bs with
  | nil =>
    intro h hh hb
    exact ⟨hh, by simp [revStep]⟩
  | cons x rest ih =>
    intro h hh hb
    obtain ⟨p, s⟩ := x
    by_cases hpq : p = q
    · simp only [revStep, if_pos hpq]
      apply ih (h ++ q.orig ++ s)
      · intro c hc
        rcases List.mem_append.mp hc with hc1 | hc2
        · rcases List.mem_append.mp hc1 with hc3 | hc4
          · exact hh c hc3
          · exact hq c hc4
        · exact hb (p, s) (by simp) c hc2
      · exact fun b hbmem => hb b (List.mem_cons_of_mem _ hbmem)
    · simp only [revStep, if_neg hpq]
      have := ih s (hb (p, s) (by simp)) fun b hbmem => hb b (List.mem_cons_of_mem _ hbmem)
      refine ⟨hh, ?_⟩
      intro b hbmem
      rcases List.mem_cons.mp hbmem with hhead | hmem
      · subst hhead
        exact this.1
      · exact this.2 b hmem

/-! ## Substitution round-trip core -/

theorem fwd_fold (t : Str) (Lr : List RPair) (hG : GoodPairs t Lr) :
    ∀ Lf : List RPair, (∀ p ∈ Lf, p ∈ Lr) →
    ∀ S : Str × List (RPair × Str),
      S.1 <:+: t → (∀ b ∈ S.2, b.1 ∈ Lr ∧ b.2 <:+: t) →
      flatF (List.foldl (fun s p => fwdStep p s) S Lf) =
        List.foldl (fun s p => rep p.ci p.orig p.repl s) (flatF S) Lf ∧
      flatG (List.foldl (fun s p => fwdStep p s) S Lf) = flatG S ∧
      (List.foldl (fun s p => fwdStep p s) S Lf).1 <:+: t ∧
      (∀ b ∈ (List.foldl (fun s p => fwdStep p s) S Lf).2, b.1 ∈ Lr ∧ b.2 <:+: t) := by
  intro Lf
  induction Lf with
  | nil =>
    intro _ S h1 h2
    exact ⟨rfl, rfl, h1, h2⟩
  | cons p rest ih =>
    intro hsub S h1 h2
    have hp : p ∈ Lr := hsub p (by simp)
    have hpo : p.orig ≠ [] := (hG p hp).1
    obtain ⟨h, bs⟩ := S
    have hbREPL : ∀ b ∈ bs, b.1.repl ≠ [] ∧ ∀ c ∈ b.1.repl, foldc c ∉ p.orig.map foldc := by
      intro b hbm
      have hbG := hG b.1 (h2 b hbm).1
      exact ⟨hbG.2.1, (hbG.2.2.2.1 p hp).1⟩
    have hstepF := flatF_fwdStep p hpo bs h hbREPL
    have hex : ∀ s' : Str, s' <:+: t → ∀ w, w <:+: s' → matchAt p.ci p.orig w = true →
        w.take p.orig.length = p.orig := by
      intro s' hs' w hw hm
      cases hci : p.ci with
      | false =>
        rw [hci] at hm
        exact matchAt_take_exact hm
      | true =>
        rw [hci] at hm
        exact (hG p hp).2.2.2.2 hci w (hw.trans hs') hm
    have hstepG := flatG_fwdStep p hpo bs h (hex h h1) fun b hbm => hex b.2 (h2 b hbm).2
    have hhead : (fwdStep p (h, bs)).1 <:+: t := (fwdStep_head p hpo h bs).isInfix.trans h1
    have hblocks : ∀ b ∈ (fwdStep p (h, bs)).2, b.1 ∈ Lr ∧ b.2 <:+: t := by
      intro b hbm
      have hmem := fwdStep_block_mem p hpo h bs b hbm
      constructor
      · rcases hmem.1 with heq | ⟨b', hb', heq⟩
        · rw [heq]; exact hp
        · rw [heq]; exact (h2 b' hb').1
      · rcases hmem.2 with hinf | ⟨b', hb', hinf⟩
        · exact hinf.trans h1
        · exact hinf.trans (h2 b' hb').2
    have hrec := ih (fun q hq => hsub q (List.mem_cons_of_mem _ hq))
      (fwdStep p (h, bs)) hhead hblocks
    simp only [List.foldl_cons]
    exact ⟨by rw [hrec.1, hstepF], by rw [hrec.2.1, hstepG], hrec.2.2.1, hrec.2.2.2⟩

theorem rev_fold (t : Str) (Lr : List RPair) (hG : GoodPairs t Lr) :
    ∀ Lrem : List RPair, (∀ p ∈ Lrem, p ∈ Lr) →
    ∀ S : Str × List (RPair × Str),
      (∀ c ∈ S.1, allowedChars t Lr (foldc c)) →
      (∀ b ∈ S.2, (b.1 ∈ Lr ∧ b.1 ∈ Lrem) ∧ ∀ c ∈ b.2, allowedChars t Lr (foldc c)) →
      List.foldl (fun s p => rep p.ci p.repl p.orig s) (flatF S) Lrem = flatG S := by
  intro Lrem
  induction Lrem with
  | nil =>
    intro _ S hchars hblocks
    obtain ⟨h, bs⟩ := S
    cases bs with
    | nil => simp [flatF_nilb, flatG_nilb]
    | cons b rest => exact absurd (hblocks b (by simp)).1.2 (by simp)
  | cons q rest ih =>
    intro hsub S hchars hblocks
    obtain ⟨h, bs⟩ := S
    have hqL : q ∈ Lr := hsub q (by simp)
    have hGq := hG q hqL
    have hqr : q.repl ≠ [] := hGq.2.1
    have hdisj : ∀ c : Char, allowedChars t Lr (foldc c) → foldc c ∉ q.repl.map foldc := by
      intro c hall hmem
      obtain ⟨d, hd, hdc⟩ := List.mem_map.mp hmem
      rcases hall with ht | ⟨p', hp', hmem'⟩
      · exact absurd (hdc ▸ ht) (hGq.2.2.1 d hd)
      · exact absurd (hdc ▸ hmem') ((hGq.2.2.2.1 p' hp').1 d hd)
    have hstep := flatF_revStep q hqr bs h
      (fun c hc => hdisj c (hchars c hc))
      (fun b hbm => ⟨fun c hc => hdisj c ((hblocks b hbm).2 c hc),
        fun hne => ⟨(hG b.1 (hblocks b hbm).1.1).2.1,
          ((hG b.1 (hblocks b hbm).1.1).2.2.2.1 q hqL).2 hne⟩⟩)
    simp only [List.foldl_cons]
    rw [hstep]
    have hchars' := revStep_chars q (allowedChars t Lr)
      (fun c hc => Or.inr ⟨q, hqL, List.mem_map_of_mem foldc hc⟩) bs h hchars
      fun b hbm => (hblocks b hbm).2
    have hblocks' : ∀ b ∈ (revStep q h bs).2,
        (b.1 ∈ Lr ∧ b.1 ∈ rest) ∧ ∀ c ∈ b.2, allowedChars t Lr (foldc c) := by
      intro b hbm
      obtain ⟨hne, b', hb', heq⟩ := revStep_block_mem q bs h b hbm
      refine ⟨⟨heq ▸ (hblocks b' hb').1.1, ?_⟩, hchars'.2 b hbm⟩
      have hmem : b.1 ∈ q :: rest := heq ▸ (hblocks b' hb').1.2
      rcases List.mem_cons.mp hmem with h1 | h2
      · exact absurd h1 hne
      · exact h2
    rw [ih (fun p hp => hsub p (List.mem_cons_of_mem _ hp)) (revStep q h bs)
      hchars'.1 hblocks', flatG_revStep]

theorem roundtrip_core (t : Str) (Lr Lf : List RPair) (hG : GoodPairs t Lr)
    (hsub : ∀ p ∈ Lf, p ∈ Lr) :
    List.foldl (fun s p => rep p.ci p.repl p.orig s)
      (List.foldl (fun s p => rep p.ci p.orig p.repl s) t Lf) Lr = t := by
  have hfwd := fwd_fold t Lr hG Lf hsub (t, []) (List.infix_refl t) (by simp)
  set S := List.foldl (fun s p => fwdStep p s) (t, []) Lf with hS
  have hflatF : flatF S = List.foldl (fun s p => rep p.ci p.orig p.repl s) t Lf := by
    rw [hfwd.1, flatF_nilb]
  have hflatG : flatG S = t := by rw [hfwd.2.1, flatG_nilb]
  have hchars : ∀ c ∈ S.1, allowedChars t Lr (foldc c) := fun c hc =>
    Or.inl (List.mem_map_of_mem foldc (hfwd.2.2.1.subset hc))
  have hblocks : ∀ b ∈ S.2, (b.1 ∈ Lr ∧ b.1 ∈ Lr) ∧
      ∀ c ∈ b.2, allowedChars t Lr (foldc c) := by
    intro b hb
    have hmem := hfwd.2.2.2 b hb
    exact ⟨⟨hmem.1, hmem.1⟩,
      fun c hc => Or.inl (List.mem_map_of_mem foldc (hmem.2.subset hc))⟩
  rw [← hflatF, rev_fold t Lr hG Lr (fun p hp => hp) S hchars hblocks, hflatG]

/-! ## Bridging the anonymizer to the flat pair lists -/

theorem applyCat_eq_foldl (ci : Bool) (ps : List (Str × Str)) (t : Str) :
    applyCat ci ps t =
      List.foldl (fun s p => rep p.ci p.orig p.repl s) t
        (ps.map fun p => (⟨p.1, p.2, ci⟩ : RPair)) := by
  induction ps generalizing t with
  | nil => rfl
  | cons p rest ih =>
    simp only [applyCat, List.foldl_cons, List.map_cons] at ih ⊢
    exact ih (rep ci p.1 p.2 t)

theorem revCat_eq_foldl (ci : Bool) (ps : List (Str × Str)) (t : Str) :
    revCat ci ps t =
      List.foldl (fun s p => rep p.ci p.repl p.orig s) t
        (ps.map fun p => (⟨p.1, p.2, ci⟩ : RPair)) := by
  induction ps generalizing t with
  | nil => rfl
  | cons p rest ih =>
    simp only [revCat, List.foldl_cons, List.map_cons] at ih ⊢
    exact ih (rep ci p.2 p.1 t)

theorem applyMapping_eq_foldl (m : MappingL) (t : Str) :
    applyMapping m t =
      List.foldl (fun s p => rep p.ci p.orig p.repl s) t (pairsOfSorted m) := by
  unfold applyMapping pairsOfSorted
  simp only [applyCat_eq_foldl, List.map_append, List.foldl_append]

theorem reverseMapping_eq_foldl (m : MappingL) (t : Str) :
    reverseMapping m t =
      List.foldl (fun s p => rep p.ci p.repl p.orig s) t (pairsOf m) := by
  unfold reverseMapping pairsOf
  simp only [revCat_eq_foldl, List.map_append, List.foldl_append]

theorem mem_insSorted (x y : Str × Str) (l : List (Str × Str)) :
    y ∈ insSorted x l ↔ y = x ∨ y ∈ l := by
  induction l with
  | nil => simp [insSorted]
  | cons z zs ih =>
    by_cases hc : z.1.length ≤ x.1.length
    · simp [insSorted, if_pos hc]
    · simp only [insSorted, if_neg hc, List.mem_cons, ih]
      tauto

theorem mem_sortByLenDesc (y : Str × Str) (l : List (Str × Str)) :
    y ∈ sortByLenDesc l ↔ y ∈ l := by
  induction l with
  | nil => simp [sortByLenDesc]
  | cons x xs ih =>
    simp only [sortByLenDesc, mem_insSorted, List.mem_cons, ih]

theorem pairsOfSorted_sub (m : MappingL) :
    ∀ p ∈ pairsOfSorted m, p ∈ pairsOf m := by
  intro p hp
  simp only [pairsOfSorted, List.mem_append, List.mem_map] at hp
  simp only [pairsOf, List.mem_append, List.mem_map]
  rcases hp with ⟨q, hq, rfl⟩ | hrest
  · exact Or.inl ⟨q, (mem_sortByLenDesc q m.persons).mp hq, rfl⟩
  · exact Or.inr hrest

theorem foldsDisj_spec {a b : Str} (h : foldsDisj a b = true) :
    ∀ c ∈ a, foldc c ∉ b.map foldc := by
  intro c hc
  simp only [foldsDisj, List.all_eq_true, Bool.not_eq_true', List.any_eq_false,
    beq_eq_false_iff_ne] at h
  intro hmem
  obtain ⟨d, hd, hdc⟩ := List.mem_map.mp hmem
  exact h c hc d hd (beq_iff_eq.mpr hdc.symm)

theorem goodPairs_of_roundtripOK {t : Str} {m : MappingL}
    (h : roundtripOK t m = true) : GoodPairs t (pairsOf m) := by
  intro p hp
  simp only [roundtripOK, List.all_eq_true] at h
  have hp' := h p hp
  simp only [Bool.and_eq_true] at hp'
  obtain ⟨⟨⟨⟨ho, hr⟩, hft⟩, hall⟩, hci⟩ := hp'
  refine ⟨?_, ?_, foldsDisj_spec hft, ?_, ?_⟩
  · intro heq
    rw [heq] at ho
    exact absurd ho (by simp)
  · intro heq
    rw [heq] at hr
    exact absurd hr (by simp)
  · intro q hq
    simp only [List.all_eq_true] at hall
    have hq' := hall q hq
    simp only [Bool.and_eq_true, Bool.or_eq_true, beq_iff_eq] at hq'
    constructor
    · exact foldsDisj_spec hq'.1
    · intro hne
      rcases hq'.2 with heq | hdisj
      · exact absurd heq hne
      · exact foldsDisj_spec hdisj
  · intro hcitrue
    simp only [Bool.or_eq_true, Bool.not_eq_true'] at hci
    rcases hci with hfalse | hexact
    · rw [hcitrue] at hfalse
      exact absurd hfalse (by simp)
    · exact fun w hw hm => ciExactInfix hexact w hw hm

theorem roundtrip_mapping {t : Str} {m : MappingL} (h : roundtripOK t m = true) :
    reverseMapping m (applyMapping m t) = t := by
  rw [applyMapping_eq_foldl, reverseMapping_eq_foldl]
  exact roundtrip_core t (pairsOf m) (pairsOfSorted m)
    (goodPairs_of_roundtripOK h) (pairsOfSorted_sub m)

/-! ## Association-list accumulation lemmas -/

theorem lookupA_append_some {acc : List (Str × Str)} {k v : Str}
    (x : List (Str × Str)) (h : lookupA acc k = some v) :
    lookupA (acc ++ x) k = some v := by
  induction acc with
  | nil => exact absurd h (by simp [lookupA])
  | cons e rest ih =>
    obtain ⟨k', v'⟩ := e
    by_cases hk : (k' == k) = true
    · simp only [lookupA, if_pos hk] at h ⊢
      exact h
    · simp only [lookupA, if_neg hk] at h ⊢
      exact ih h

theorem lookupA_addCat (mk : Nat → Str → Str) (es : List Str) :
    ∀ (acc : List (Str × Str)) (n : Nat) {k v : Str}, lookupA acc k = some v →
      lookupA (addCat mk es (acc, n)).1 k = some v := by
  induction es with
  | nil => intro acc n k v h; exact h
  | cons e rest ih =>
    intro acc n k v h
    cases hle : lookupA acc e with
    | some w =>
      have hstep : addCat mk (e :: rest) (acc, n) = addCat mk rest (acc, n) := by
        simp [addCat, hle]
      rw [hstep]
      exact ih acc n h
    | none =>
      have hstep : addCat mk (e :: rest) (acc, n) =
          addCat mk rest (acc ++ [(e, mk n e)], n + 1) := by
        simp [addCat, hle]
      rw [hstep]
      exact ih _ _ (lookupA_append_some _ h)

/-! ## Claim C1 -/

/-- Claim C1, counterexample: for the text `"Maria Silva e MARIA SILVA"`,
person detector output `["Maria Silva"]` and a possible oracle draw, the
mapping `m = generate_replacements (detect_all text)` satisfies the claim's
collision precondition, yet `reverse (apply text m) m ≠ text`: the
case-variant occurrence `"MARIA SILVA"` is replaced case-insensitively and
restored in the detected casing. -/
theorem c1_roundtrip_counterexample :
    noCollide caseVariantMapping = true ∧
    reverseMapping caseVariantMapping (applyMapping caseVariantMapping caseVariantText) ≠
      caseVariantText :=
  ⟨by decide, by decide⟩

/-- Claim C1, amended: for every text, person-detector output, current year
and oracle draw, with `m = generate_replacements (detect_all text)`, if in
addition every case-insensitive occurrence in the text of a person original
is exact-case, and every generated replacement is nonempty and
case-folded-character-fresh — its folded characters avoid the text, every
original, and every other replacement (`roundtripOK`) — then
`reverse (apply text m) m = text`. -/
theorem c1_roundtrip_amended (text : Str) (rawPersons : List Str) (year : Nat)
    (g : Gens)
    (h : roundtripOK text
      (generate_replacements initMapping (detect_all rawPersons year text) g) = true) :
    reverseMapping (generate_replacements initMapping (detect_all rawPersons year text) g)
      (applyMapping
        (generate_replacements initMapping (detect_all rawPersons year text) g) text) =
      text :=
  roundtrip_mapping h

/-- Claim C1, witness: the amended round trip at the concrete text
`"Ana e Bob"` with detected person `"Ana"` replaced by `"Zq"`. -/
theorem c1_roundtrip_witness :
    roundtripOK simpleText
      (generate_replacements initMapping (detect_all ["Ana".toList] 2026 simpleText)
        oracleZq) = true ∧
    reverseMapping
      (generate_replacements initMapping (detect_all ["Ana".toList] 2026 simpleText)
        oracleZq)
      (applyMapping
        (generate_replacements initMapping (detect_all ["Ana".toList] 2026 simpleText)
          oracleZq) simpleText) = simpleText :=
  ⟨by decide, c1_roundtrip_amended simpleText ["Ana".toList] 2026 oracleZq (by decide)⟩

/-! ## Claim C2 -/

/-- Claim C2: the claim states that every output of `generate_valid_cpf`
passes `validate_cpf`, including outputs whose nine random base digits are
all equal.  The code violates this: with all-equal base digits both check
digits repeat the same digit, the formatted output is an all-equal CPF, and
`validate_cpf` rejects all-equal CPFs.  This theorem evaluates the code at
the failing inputs. -/
theorem c2_generator_all_equal_invalid :
    ∀ d, d < 10 → validate_cpf (generate_valid_cpf (List.replicate 9 d)) = false := by
  decide

/-- Claim C2, witness for the failing-input evaluation: nine zeros produce
`"000.000.000-00"`, which the validator rejects. -/
theorem c2_generator_all_equal_invalid_witness :
    0 < 10 ∧
    generate_valid_cpf (List.replicate 9 0) = "000.000.000-00".toList ∧
    validate_cpf (generate_valid_cpf (List.replicate 9 0)) = false :=
  ⟨by decide, by decide, c2_generator_all_equal_invalid 0 (by decide)⟩

/-! ## Claim C5 -/

/-- Claim C5, counterexample: the claim states that each `anonymize` call
behaves as if it started from an empty mapping.  On an instance whose state
already maps the date `15/03/1990` (from a previous document), anonymizing
the new document `"15/03/1990"` substitutes the stale replacement
`20/05/1980`, while a fresh instance would generate a new value
(`01/01/1950` under this oracle draw): the run state leaks. -/
theorem c5_state_leak_counterexample :
    (anonymize [] 2026 emptyOracles staleState ("15/03/1990".toList)).1 ≠
      (anonymize [] 2026 emptyOracles initMapping ("15/03/1990".toList)).1 := by
  decide

/-- Claim C5, amended: as §9 of the specification concedes, the mapping
accumulates inside the instance instead of starting empty: every entry of
the incoming run state survives into the mapping produced by `anonymize`
(and is therefore reused rather than regenerated). -/
theorem c5_state_accumulates (raw : List Str) (year : Nat) (g : Gens)
    (st : MappingL) (text : Str) (k v : Str) :
    (lookupA st.persons k = some v →
      lookupA (anonymize raw year g st text).2.persons k = some v) ∧
    (lookupA st.cpfs k = some v →
      lookupA (anonymize raw year g st text).2.cpfs k = some v) ∧
    (lookupA st.rgs k = some v →
      lookupA (anonymize raw year g st text).2.rgs k = some v) ∧
    (lookupA st.dates k = some v →
      lookupA (anonymize raw year g st text).2.dates k = some v) := by
  refine ⟨fun h => ?_, fun h => ?_, fun h => ?_, fun h => ?_⟩ <;>
    exact lookupA_addCat _ _ _ _ h

/-- Claim C5, witness: the stale date entry survives a fresh `anonymize`
call on the same instance. -/
theorem c5_state_accumulates_witness :
    lookupA staleState.dates ("15/03/1990".toList) = some ("20/05/1980".toList) ∧
    lookupA (anonymize [] 2026 emptyOracles staleState ("15/03/1990".toList)).2.dates
      ("15/03/1990".toList) = some ("20/05/1980".toList) :=
  ⟨by decide,
    (c5_state_accumulates [] 2026 emptyOracles staleState ("15/03/1990".toList)
      ("15/03/1990".toList) ("20/05/1980".toList)).2.2.2 (by decide)⟩

/-! ## Claim C10 -/

theorem digitChar_isDigit : ∀ d, d < 10 → (Nat.digitChar d).isDigit = true := by
  decide

theorem rgKeep_digitChar {d : Nat} (h : d < 10) : rgKeep (Nat.digitChar d) = true := by
  simp [rgKeep, digitChar_isDigit d h]

theorem rgKeep_of_mem_choices {c : Char} (h : c ∈ rgLastChoices) : rgKeep c = true :=
  List.all_eq_true.mp (by decide : rgLastChoices.all rgKeep = true) c h

/-- Claim C10: every output of `generate_valid_rg` passes `validate_rg`:
the eight digit characters and the final digit-or-X character survive the
cleaning, the dots and dash are stripped, and the cleaned length is 9,
inside the accepted 7..9 range. -/
theorem c10_generated_rg_validates (ds : List Nat) (last : Char)
    (hlen : ds.length = 8) (hd : ∀ d ∈ ds, d < 10) (hl : last ∈ rgLastChoices) :
    validate_rg (generate_valid_rg ds last) = true := by
  rcases ds with _ | ⟨a, _ | ⟨b, _ | ⟨c, _ | ⟨d, _ | ⟨e, _ | ⟨f, _ | ⟨g, _ | ⟨h, _ | ⟨i, t⟩⟩⟩⟩⟩⟩⟩⟩⟩ <;>
    simp_all
  have ka := rgKeep_digitChar (hd.1)
  have kb := rgKeep_digitChar (hd.2.1)
  have kc := rgKeep_digitChar (hd.2.2.1)
  have kd := rgKeep_digitChar (hd.2.2.2.1)
  have ke := rgKeep_digitChar (hd.2.2.2.2.1)
  have kf := rgKeep_digitChar (hd.2.2.2.2.2.1)
  have kg := rgKeep_digitChar (hd.2.2.2.2.2.2.1)
  have kh := rgKeep_digitChar (hd.2.2.2.2.2.2.2)
  have kl := rgKeep_of_mem_choices hl
  simp [validate_rg, generate_valid_rg, List.filter_cons, ka, kb, kc, kd, ke, kf, kg, kh, kl,
    (by decide : rgKeep '.' = false), (by decide : rgKeep '-' = false)]

/-- Claim C10, witness: a concrete generated RG with final character `X`
validates. -/
theorem c10_generated_rg_validates_witness :
    ([1, 2, 3, 4, 5, 6, 7, 8] : List Nat).length = 8 ∧
    (∀ d ∈ ([1, 2, 3, 4, 5, 6, 7, 8] : List Nat), d < 10) ∧
    'X' ∈ rgLastChoices ∧
    validate_rg (generate_valid_rg [1, 2, 3, 4, 5, 6, 7, 8] 'X') = true :=
  ⟨by decide, by decide, by decide,
    c10_generated_rg_validates [1, 2, 3, 4, 5, 6, 7, 8] 'X' (by decide) (by decide)
      (by decide)⟩

/-! ## Claim C3 -/

/-- Claim C3: for every cipher satisfying the authenticated-encryption
contract, every 16-byte salt and nonce draw, every mapping value and every
non-empty password, decrypting the result of encrypting the mapping with
the same password yields the original mapping. -/
theorem c3_vault_roundtrip {Key : Type} (C : AECipher Key) (salt : List Nat)
    (nonce : Nat) (m : MappingL) (pw : Str) (hsalt : salt.length = 16)
    (hpw : pw ≠ []) :
    decrypt_mapping C (encrypt_mapping C salt nonce m pw) pw = .ok m := by
  unfold decrypt_mapping encrypt_mapping
  have htake : (salt ++ C.enc (C.kdf pw salt) nonce (C.ser m)).take 16 = salt := by
    rw [← hsalt]
    simp
  have hdrop : (salt ++ C.enc (C.kdf pw salt) nonce (C.ser m)).drop 16 =
      C.enc (C.kdf pw salt) nonce (C.ser m) := by
    rw [← hsalt]
    simp
  rw [htake, hdrop, C.enc_dec]
  simp [C.deser_ser]

/-- Claim C3, witness: the round trip through the concrete toy cipher at a
concrete nonempty mapping and password. -/
theorem c3_vault_roundtrip_witness :
    (List.replicate 16 (0 : Nat)).length = 16 ∧ ("pw".toList : Str) ≠ [] ∧
    decrypt_mapping toyCipher
      (encrypt_mapping toyCipher (List.replicate 16 0) 0 staleState ("pw".toList))
      ("pw".toList) = .ok staleState :=
  ⟨by decide, by decide,
    c3_vault_roundtrip toyCipher (List.replicate 16 0) 0 staleState ("pw".toList)
      (by decide) (by decide)⟩

/-! ## Claim C6 -/

/-- Claim C6: decrypting a blob encrypted under a different password fails
with `AuthenticationError` and never returns a mapping, for every cipher
satisfying the authenticated-encryption contract (ciphertexts bind their
key and the key derivation is collision-free in the password). -/
theorem c6_wrong_password_auth_error {Key : Type} (C : AECipher Key)
    (salt : List Nat) (nonce : Nat) (m : MappingL) (pw1 pw2 : Str)
    (hsalt : salt.length = 16) (hne : pw1 ≠ pw2) :
    decrypt_mapping C (encrypt_mapping C salt nonce m pw1) pw2 =
      .error .authError := by
  unfold decrypt_mapping encrypt_mapping
  have htake : (salt ++ C.enc (C.kdf pw1 salt) nonce (C.ser m)).take 16 = salt := by
    rw [← hsalt]
    simp
  have hdrop : (salt ++ C.enc (C.kdf pw1 salt) nonce (C.ser m)).drop 16 =
      C.enc (C.kdf pw1 salt) nonce (C.ser m) := by
    rw [← hsalt]
    simp
  rw [htake, hdrop]
  cases hdec : C.dec (C.kdf pw2 salt) (C.enc (C.kdf pw1 salt) nonce (C.ser m)) with
  | none => rfl
  | some d =>
    obtain ⟨n', heq⟩ := C.dec_auth _ _ _ hdec
    obtain ⟨hk, _⟩ := C.enc_inj _ _ _ _ _ _ heq.symm
    exact absurd (C.kdf_inj _ _ _ hk) (Ne.symm hne)

/-- Claim C6, witness: wrong-password decryption through the toy cipher. -/
theorem c6_wrong_password_auth_error_witness :
    (List.replicate 16 (0 : Nat)).length = 16 ∧ ("pw1".toList : Str) ≠ "pw2".toList ∧
    decrypt_mapping toyCipher
      (encrypt_mapping toyCipher (List.replicate 16 0) 0 staleState ("pw1".toList))
      ("pw2".toList) = .error .authError :=
  ⟨by decide, by decide,
    c6_wrong_password_auth_error toyCipher (List.replicate 16 0) 0 staleState
      ("pw1".toList) ("pw2".toList) (by decide) (by decide)⟩

/-! ## Claim C9 -/

/-- Claim C9: decryption is total with only the two declared failure modes:
a blob shorter than 16 bytes leaves an empty ciphertext, which cannot be a
genuine ciphertext and fails with `AuthenticationError`; a well-formed salt
with a ciphertext tail that is not a genuine ciphertext under the derived
key fails with one of `AuthenticationError`/`CorruptDataError` and never
returns a mapping. -/
theorem c9_short_or_corrupt_blob {Key : Type} (C : AECipher Key) (pw : Str) :
    (∀ blob : List Nat, blob.length < 16 →
      decrypt_mapping C blob pw = .error .authError) ∧
    (∀ salt ct : List Nat, salt.length = 16 →
      (∀ (n : Nat) (d : List Nat), ct ≠ C.enc (C.kdf pw salt) n d) →
      ∃ e, decrypt_mapping C (salt ++ ct) pw = .error e) := by
  constructor
  · intro blob hlen
    unfold decrypt_mapping
    have hdropnil : blob.drop 16 = [] :=
      List.drop_eq_nil_of_le (by omega)
    rw [hdropnil]
    cases hdec : C.dec (C.kdf pw (blob.take 16)) [] with
    | none => rfl
    | some d =>
      obtain ⟨n', heq⟩ := C.dec_auth _ _ _ hdec
      exact absurd heq.symm (C.enc_ne_nil _ _ _)
  · intro salt ct hsalt hne
    unfold decrypt_mapping
    have htake : (salt ++ ct).take 16 = salt := by
      rw [← hsalt]
      simp
    have hdrop : (salt ++ ct).drop 16 = ct := by
      rw [← hsalt]
      simp
    rw [htake, hdrop]
    cases hdec : C.dec (C.kdf pw salt) ct with
    | none => exact ⟨.authError, rfl⟩
    | some d =>
      obtain ⟨n', heq⟩ := C.dec_auth _ _ _ hdec
      exact absurd heq (hne n' d)

/-- Claim C9, witness: a 3-byte blob and a corrupted one-byte ciphertext
tail through the toy cipher. -/
theorem c9_short_or_corrupt_blob_witness :
    ([1, 2, 3] : List Nat).length < 16 ∧
    decrypt_mapping toyCipher [1, 2, 3] ("pw".toList) = .error .authError ∧
    (List.replicate 16 (0 : Nat)).length = 16 ∧
    (∃ e, decrypt_mapping toyCipher (List.replicate 16 0 ++ [5]) ("pw".toList) =
      .error e) :=
  ⟨by decide,
    (c9_short_or_corrupt_blob toyCipher ("pw".toList)).1 [1, 2, 3] (by decide),
    by decide,
    (c9_short_or_corrupt_blob toyCipher ("pw".toList)).2 (List.replicate 16 0) [5]
      (by decide)
      (by
        intro n d h
        have hlen := congrArg List.length h
        simp [toyCipher, toyEnc, toyHdr] at hlen)⟩

/-! ## Claim C7 -/

theorem yearDoyGo_bounds : ∀ n f y k : Nat, n ≤ f → k < sumDays y n →
    y ≤ (yearDoyGo f y k).1 ∧ (yearDoyGo f y k).1 < y + n ∧
    (yearDoyGo f y k).2 < daysInYear (yearDoyGo f y k).1 := by
  intro n
  induction n with
  | zero =>
    intro f y k hf hk
    simp [sumDays] at hk
  | succ n ih =>
    intro f y k hf hk
    cases f with
    | zero => omega
    | succ f' =>
      by_cases hlt : k < daysInYear y
      · simp only [yearDoyGo, if_pos hlt]
        exact ⟨Nat.le_refl y, by omega, hlt⟩
      · simp only [yearDoyGo, if_neg hlt]
        have hk' : k - daysInYear y < sumDays (y + 1) n := by
          simp only [sumDays] at hk
          omega
        have hrec := ih f' (y + 1) (k - daysInYear y) (by omega) hk'
        exact ⟨by omega, by omega, hrec.2.2⟩

theorem sumDays_1950_57 : sumDays 1950 57 = 20819 := by decide

theorem mdGo_bounds : ∀ (L : List Nat) (m d : Nat), d < L.sum →
    (∀ x ∈ L, 0 < x ∧ x ≤ 31) →
    m ≤ (mdGo m L d).1 ∧ (mdGo m L d).1 < m + L.length ∧
    1 ≤ (mdGo m L d).2 ∧ (mdGo m L d).2 ≤ 31 := by
  intro L
  induction L with
  | nil =>
    intro m d h _
    simp at h
  | cons len rest ih =>
    intro m d h hall
    by_cases hlt : d < len
    · simp only [mdGo, if_pos hlt]
      have hlen31 := hall len (by simp)
      refine ⟨Nat.le_refl m, ?_, by omega, by omega⟩
      simp only [List.length_cons]
      omega
    · simp only [mdGo, if_neg hlt]
      have hd' : d - len < rest.sum := by
        simp only [List.sum_cons] at h
        omega
      have hrec := ih (m + 1) (d - len) hd' fun x hx => hall x (by simp [hx])
      refine ⟨by omega, ?_, hrec.2.2⟩
      simp only [List.length_cons]
      omega

theorem monthLengths_sum (b : Bool) :
    (monthLengths b).sum = (if b then 366 else 365) := by
  cases b <;> decide

theorem monthLengths_bounds (b : Bool) : ∀ x ∈ monthLengths b, 0 < x ∧ x ≤ 31 := by
  cases b <;> decide

theorem dateOfOffset_bounds (k : Nat) (hk : k ≤ adultDelta) :
    1950 ≤ (dateOfOffset k).1 ∧ (dateOfOffset k).1 ≤ 2006 ∧
    1 ≤ (dateOfOffset k).2.1 ∧ (dateOfOffset k).2.1 ≤ 12 ∧
    1 ≤ (dateOfOffset k).2.2 ∧ (dateOfOffset k).2.2 ≤ 31 := by
  have hk' : k < sumDays 1950 57 := by
    rw [sumDays_1950_57]
    simp only [adultDelta] at hk
    omega
  have h1 := yearDoyGo_bounds 57 60 1950 k (by omega) hk'
  have e1 : (dateOfOffset k).1 = (yearDoyGo 60 1950 k).1 := rfl
  have e2 : (dateOfOffset k).2.1 =
      (mdGo 1 (monthLengths (isLeap (yearDoyGo 60 1950 k).1))
        (yearDoyGo 60 1950 k).2).1 := rfl
  have e3 : (dateOfOffset k).2.2 =
      (mdGo 1 (monthLengths (isLeap (yearDoyGo 60 1950 k).1))
        (yearDoyGo 60 1950 k).2).2 := rfl
  have hdoy : (yearDoyGo 60 1950 k).2 <
      (monthLengths (isLeap (yearDoyGo 60 1950 k).1)).sum := by
    rw [monthLengths_sum]
    have hd := h1.2.2
    unfold daysInYear at hd
    exact hd
  have h2 := mdGo_bounds (monthLengths (isLeap (yearDoyGo 60 1950 k).1)) 1
    (yearDoyGo 60 1950 k).2 hdoy (monthLengths_bounds _)
  have hlen : (monthLengths (isLeap (yearDoyGo 60 1950 k).1)).length = 12 := by
    cases hb : isLeap (yearDoyGo 60 1950 k).1 <;> decide
  rw [e1, e2, e3]
  have hm := h2.2.1
  rw [hlen] at hm
  refine ⟨h1.1, by omega, h2.1, by omega, h2.2.2.1, h2.2.2.2⟩

theorem digit_ne_of {y : Char} (hy : y.isDigit = false) :
    ∀ g : List Char, (∀ x ∈ g, x.isDigit = true) → ∀ x ∈ g, y ≠ x := by
  intro g hg x hx heq
  rw [heq] at hy
  simp [hg x hx] at hy

theorem dateSepOf_shape (a b c d e f g h sep : Char)
    (hdig : ∀ x ∈ [a, b, c, d, e, f, g, h], x.isDigit = true)
    (hsep : sep = '/' ∨ sep = '-' ∨ sep = '.') :
    dateSepOf [a, b, sep, c, d, sep, e, f, g, h] = sep := by
  have hslash := digit_ne_of (by decide : ('/' : Char).isDigit = false) _ hdig
  have hdash := digit_ne_of (by decide : ('-' : Char).isDigit = false) _ hdig
  rcases hsep with rfl | rfl | rfl
  · simp [dateSepOf, List.contains, hslash a (by simp), hslash b (by simp)]
  · simp [dateSepOf, List.contains,
      hslash a (by simp), hslash b (by simp), hslash c (by simp), hslash d (by simp),
      hslash e (by simp), hslash f (by simp), hslash g (by simp), hslash h (by simp),
      hdash a (by simp), hdash b (by simp)]
  · simp [dateSepOf, List.contains,
      hslash a (by simp), hslash b (by simp), hslash c (by simp), hslash d (by simp),
      hslash e (by simp), hslash f (by simp), hslash g (by simp), hslash h (by simp),
      hdash a (by simp), hdash b (by simp), hdash c (by simp), hdash d (by simp),
      hdash e (by simp), hdash f (by simp), hdash g (by simp), hdash h (by simp)]

/-- Claim C7: for every random day offset in the legal range
`0..(2006-12-31 minus 1950-01-01).days` and every detected date string
(two day digits, separator, two month digits, separator, four year digits,
with separator `/`, `-` or `.`), the generated replacement uses the same
separator as the original and denotes a calendar date with year in
1950..2006, month in 1..12 and day in 1..31 — i.e. within
1950-01-01..2006-12-31 inclusive. -/
theorem c7_adult_date_format (k : Nat) (hk : k ≤ adultDelta)
    (a b c d e f g h sep : Char)
    (hdig : ∀ x ∈ [a, b, c, d, e, f, g, h], x.isDigit = true)
    (hsep : sep = '/' ∨ sep = '-' ∨ sep = '.') :
    ∃ D M Y, generateAdultDate k [a, b, sep, c, d, sep, e, f, g, h] =
        pad2 D ++ [sep] ++ pad2 M ++ [sep] ++ year4 Y ∧
      1950 ≤ Y ∧ Y ≤ 2006 ∧ 1 ≤ M ∧ M ≤ 12 ∧ 1 ≤ D ∧ D ≤ 31 := by
  have hbounds := dateOfOffset_bounds k hk
  refine ⟨(dateOfOffset k).2.2, (dateOfOffset k).2.1, (dateOfOffset k).1, ?_,
    hbounds.1, hbounds.2.1, hbounds.2.2.1, hbounds.2.2.2.1, hbounds.2.2.2.2.1,
    hbounds.2.2.2.2.2⟩
  unfold generateAdultDate
  rw [dateSepOf_shape a b c d e f g h sep hdig hsep]
  rfl

/-- Claim C7, witness: offset 0 for original `15/03/1990` produces a
slash-separated date in range (concretely `01/01/1950`). -/
theorem c7_adult_date_format_witness :
    0 ≤ adultDelta ∧
    (∃ D M Y,
      generateAdultDate 0 ['1', '5', '/', '0', '3', '/', '1', '9', '9', '0'] =
        pad2 D ++ ['/'] ++ pad2 M ++ ['/'] ++ year4 Y ∧
      1950 ≤ Y ∧ Y ≤ 2006 ∧ 1 ≤ M ∧ M ≤ 12 ∧ 1 ≤ D ∧ D ≤ 31) :=
  ⟨by decide,
    c7_adult_date_format 0 (by decide) '1' '5' '0' '3' '1' '9' '9' '0' '/'
      (by decide) (Or.inl rfl)⟩

/-! ## Claim C8 -/

theorem dedupGo_subset : ∀ (seen : List Str) (l : List (Str × Nat × Nat)),
    ∀ e ∈ dedupGo seen l, e ∈ l := by
  intro seen l
  induction l generalizing seen with
  | nil => intro e he; exact absurd he (by simp [dedupGo])
  | cons x rest ih =>
    intro e he
    by_cases hc : seen.contains (normDigits x.1) = true
    · simp only [dedupGo, if_pos hc] at he
      exact List.mem_cons_of_mem _ (ih seen e he)
    · simp only [dedupGo, if_neg hc] at he
      rcases List.mem_cons.mp he with rfl | hmem
      · exact List.mem_cons_self _ _
      · exact List.mem_cons_of_mem _ (ih _ e hmem)

theorem dedupGo_norms : ∀ (seen : List Str) (l : List (Str × Nat × Nat)),
    List.Pairwise (fun x y => normDigits x.1 ≠ normDigits y.1) (dedupGo seen l) ∧
    ∀ e ∈ dedupGo seen l, seen.contains (normDigits e.1) = false := by
  intro seen l
  induction l generalizing seen with
  | nil => exact ⟨by simp [dedupGo], by simp [dedupGo]⟩
  | cons x rest ih =>
    by_cases hc : seen.contains (normDigits x.1) = true
    · simp only [dedupGo, if_pos hc]
      exact ih seen
    · simp only [dedupGo, if_neg hc]
      have hrec := ih (normDigits x.1 :: seen)
      constructor
      · refine List.pairwise_cons.mpr ⟨?_, hrec.1⟩
        intro e he heq
        have := hrec.2 e he
        simp only [List.contains_cons] at this
        rw [heq] at this
        simp at this
      · intro e he
        rcases List.mem_cons.mp he with rfl | hmem
        · exact Bool.not_eq_true _ ▸ (by simpa using hc)
        · have := hrec.2 e hmem
          simp only [List.contains_cons, Bool.or_eq_false_iff] at this
          exact this.2

theorem dedupGo_first_source :
    ∀ (l1 : List (Str × Nat × Nat)) (seen : List Str) (l2 : List (Str × Nat × Nat))
      (e : Str × Nat × Nat), e ∈ l1 → seen.contains (normDigits e.1) = false →
      ∃ e', e' ∈ dedupGo seen (l1 ++ l2) ∧ normDigits e'.1 = normDigits e.1 ∧
        e' ∈ l1 := by
  intro l1
  induction l1 with
  | nil => intro seen l2 e he; exact absurd he (by simp)
  | cons x rest ih =>
    intro seen l2 e he hseen
    by_cases hc : seen.contains (normDigits x.1) = true
    · have hstep : dedupGo seen ((x :: rest) ++ l2) = dedupGo seen (rest ++ l2) := by
        rw [List.cons_append]
        show (if seen.contains (normDigits x.1) = true then dedupGo seen (rest ++ l2)
              else x :: dedupGo (normDigits x.1 :: seen) (rest ++ l2)) = _
        rw [if_pos hc]
      rcases List.mem_cons.mp he with rfl | hmem
      · rw [hc] at hseen
        exact absurd hseen (by simp)
      · obtain ⟨e', h1, h2, h3⟩ := ih seen l2 e hmem hseen
        exact ⟨e', by rw [hstep]; exact h1, h2, List.mem_cons_of_mem _ h3⟩
    · have hstep : dedupGo seen ((x :: rest) ++ l2) =
          x :: dedupGo (normDigits x.1 :: seen) (rest ++ l2) := by
        rw [List.cons_append]
        show (if seen.contains (normDigits x.1) = true then dedupGo seen (rest ++ l2)
              else x :: dedupGo (normDigits x.1 :: seen) (rest ++ l2)) = _
        rw [if_neg hc]
      by_cases hnorm : normDigits e.1 = normDigits x.1
      · exact ⟨x, by rw [hstep]; exact List.mem_cons_self _ _, hnorm.symm,
          List.mem_cons_self _ _⟩
      · have hmem : e ∈ rest := by
          rcases List.mem_cons.mp he with rfl | hmem2
          · exact absurd rfl hnorm
          · exact hmem2
        have hseen' : (normDigits x.1 :: seen).contains (normDigits e.1) = false := by
          simp only [List.contains_cons, Bool.or_eq_false_iff]
          refine ⟨?_, hseen⟩
          rw [beq_eq_false_iff_ne]
          exact hnorm
        obtain ⟨e', h1, h2, h3⟩ := ih (normDigits x.1 :: seen) l2 e hmem hseen'
        exact ⟨e', by rw [hstep]; exact List.mem_cons_of_mem _ h1, h2,
          List.mem_cons_of_mem _ h3⟩

theorem matchCpfPunct_bound {s : Str} {n : Nat} (h : matchCpfPunct s = some n) :
    0 < n ∧ n ≤ s.length := by
  unfold matchCpfPunct at h
  split at h
  · split_ifs at h
    injection h with hn
    subst hn
    refine ⟨by decide, ?_⟩
    simp
  · exact absurd h (by simp)

theorem matchBare11_bound {s : Str} {n : Nat} (h : matchBare11 s = some n) :
    0 < n ∧ n ≤ s.length := by
  unfold matchBare11 at h
  split at h
  · split_ifs at h
    injection h with hn
    subst hn
    refine ⟨by decide, ?_⟩
    simp
  · exact absurd h (by simp)

theorem findMatchesGo_sound (mf : Str → Option Nat)
    (hmf : ∀ s n, mf s = some n → 0 < n ∧ n ≤ s.length) :
    ∀ (fuel pos : Nat) (s : Str) (e : Str × Nat × Nat),
      e ∈ findMatchesGo mf fuel pos s →
      ∃ off, e.2.1 = pos + off ∧ e.2.2 = e.2.1 + e.1.length ∧
        e.1 = (s.drop off).take (e.2.2 - e.2.1) := by
  intro fuel
  induction fuel with
  | zero => intro pos s e he; exact absurd he (by simp [findMatchesGo])
  | succ fuel ih =>
    intro pos s e he
    cases s with
    | nil => exact absurd he (by simp [findMatchesGo])
    | cons c t =>
      cases hmfv : mf (c :: t) with
      | none =>
        simp only [findMatchesGo, hmfv] at he
        obtain ⟨off, h1, h2, h3⟩ := ih (pos + 1) t e he
        refine ⟨1 + off, by omega, h2, ?_⟩
        rw [h3]
        congr 1
        rw [show (1 : Nat) + off = off + 1 by omega]
        rfl
      | some n =>
        by_cases hn0 : n = 0
        · simp only [findMatchesGo, hmfv, hn0] at he
          simp only [beq_self_eq_true, if_true] at he
          obtain ⟨off, h1, h2, h3⟩ := ih (pos + 1) t e he
          refine ⟨1 + off, by omega, h2, ?_⟩
          rw [h3]
          congr 1
          rw [show (1 : Nat) + off = off + 1 by omega]
          rfl
        · have hbn : (n == 0) = false := by
            rw [beq_eq_false_iff_ne]
            exact hn0
          simp only [findMatchesGo, hmfv, hbn, if_false] at he
          rcases List.mem_cons.mp he with rfl | hmem
          · have hb := hmf _ _ hmfv
            refine ⟨0, by simp, ?_, ?_⟩
            · show pos + n = pos + (List.take n (c :: t)).length
              rw [List.length_take]
              simp only [List.length_cons]
              simp only [List.length_cons] at hb
              omega
            · show List.take n (c :: t) = ((c :: t).drop 0).take (pos + n - pos)
              rw [List.drop_zero]
              congr 1
              omega
          · obtain ⟨off, h1, h2, h3⟩ := ih (pos + n) ((c :: t).drop n) e hmem
            refine ⟨n + off, by omega, h2, ?_⟩
            rw [h3, List.drop_drop]

theorem extract_cpfs_mem_scan {text : Str} {e : Str × Nat × Nat}
    (he : e ∈ extract_cpfs text) :
    validate_cpf e.1 = true ∧
      (e ∈ findMatches matchCpfPunct text ∨ e ∈ findMatches matchBare11 text) := by
  have hsub := dedupGo_subset [] _ e he
  rcases List.mem_append.mp hsub with h1 | h2
  · have := List.mem_filter.mp h1
    exact ⟨this.2, Or.inl this.1⟩
  · have := List.mem_filter.mp h2
    exact ⟨this.2, Or.inr this.1⟩

/-- Claim C8, counterexample: in the text `"11144477735 e 111.444.777-35"`
the same normalized tax ID occurs bare at position 0 (a checksum-valid
match) and punctuated at position 14; the code retains the punctuated entry
at position 14, not the first occurrence in the text. -/
theorem c8_first_occurrence_counterexample :
    extract_cpfs mixedFormText = [("111.444.777-35".toList, 14, 28)] ∧
    sliceAt mixedFormText 0 11 = "11144477735".toList ∧
    validate_cpf ("11144477735".toList) = true ∧
    normDigits ("11144477735".toList) = normDigits ("111.444.777-35".toList) := by
  refine ⟨by decide, by decide, by decide, by decide⟩

/-- Claim C8, amended: `extract_cpfs` returns only checksum-valid matches,
pairwise distinct in normalized digits, each carrying its original
formatted text with its true span in the text; deduplication keeps the
first match in *scan order*, where all punctuated-pattern matches precede
all bare matches: a normalized value that has a validated punctuated match
is always retained as a punctuated match (with its formatted text), even
when a bare occurrence comes earlier in the text. -/
theorem c8_extract_tax_ids (text : Str) :
    (∀ e ∈ extract_cpfs text, validate_cpf e.1 = true) ∧
    List.Pairwise (fun x y => normDigits x.1 ≠ normDigits y.1) (extract_cpfs text) ∧
    (∀ e ∈ extract_cpfs text, e.1 = sliceAt text e.2.1 e.2.2) ∧
    (∀ e ∈ (findMatches matchCpfPunct text).filter (fun e => validate_cpf e.1),
      ∃ e', e' ∈ extract_cpfs text ∧ normDigits e'.1 = normDigits e.1 ∧
        e' ∈ (findMatches matchCpfPunct text).filter fun e => validate_cpf e.1) := by
  refine ⟨?_, (dedupGo_norms [] _).1, ?_, ?_⟩
  · intro e he
    exact (extract_cpfs_mem_scan he).1
  · intro e he
    have hscan := (extract_cpfs_mem_scan he).2
    have hsound : ∃ off, e.2.1 = 0 + off ∧ e.2.2 = e.2.1 + e.1.length ∧
        e.1 = (text.drop off).take (e.2.2 - e.2.1) := by
      rcases hscan with h1 | h2
      · exact findMatchesGo_sound matchCpfPunct (fun s n h => matchCpfPunct_bound h)
          text.length 0 text e h1
      · exact findMatchesGo_sound matchBare11 (fun s n h => matchBare11_bound h)
          text.length 0 text e h2
    obtain ⟨off, h1, h2, h3⟩ := hsound
    rw [h3]
    unfold sliceAt
    rw [show off = e.2.1 by omega]
  · intro e he
    exact dedupGo_first_source _ [] _ e he (by simp)

/-- Claim C8, witness: the punctuated entry of the mixed-form text is
retained, validates, and carries its exact slice of the text. -/
theorem c8_extract_tax_ids_witness :
    ("111.444.777-35".toList, 14, 28) ∈ extract_cpfs mixedFormText ∧
    validate_cpf ("111.444.777-35".toList) = true ∧
    ("111.444.777-35".toList : Str) = sliceAt mixedFormText 14 28 :=
  ⟨by decide,
    (c8_extract_tax_ids mixedFormText).1 ("111.444.777-35".toList, 14, 28) (by decide),
    (c8_extract_tax_ids mixedFormText).2.2.1 ("111.444.777-35".toList, 14, 28)
      (by decide)⟩

/-! ## Claim C4 -/

theorem matchAt_self (ci : Bool) (x : Str) : matchAt ci x x = true := by
  have h := matchAt_refl ci x []
  rwa [List.append_nil] at h

theorem rep_self {ci : Bool} {o r : Str} (ho : o ≠ []) : rep ci o r o = r := by
  rw [rep_match ho (matchAt_self ci o), List.drop_length, rep_nil, List.append_nil]

theorem foldc_not_mem_sub {a t o : Str} (hsub : ∀ x ∈ o, x ∈ t)
    (h : ∀ c ∈ a, foldc c ∉ t.map foldc) : ∀ c ∈ a, foldc c ∉ o.map foldc := by
  intro c hc hmem
  obtain ⟨d, hd, hdc⟩ := List.mem_map.mp hmem
  exact h c hc (List.mem_map.mpr ⟨d, hsub d hd, hdc⟩)

/-- Claim C4: substitution applies persons longest-first, case-insensitively,
at every occurrence, before the exact categories.  With persons
`{"Maria Silva" ↦ r1, "Maria" ↦ r2}` (r1, r2 nonempty, character-fresh for
the text): (i) the spec's example text comes out with the full name
substituted by `r1` and the standalone `"Maria"` by `r2`; (ii) a text with
two occurrences of `"Maria Silva"` has both replaced by `r1`; and (iii) the
result never contains the partial replacement `r2 ++ " Silva"`. -/
theorem c4_substitution_order (r1 r2 : Str) (h1 : r1 ≠ []) (h2 : r2 ≠ [])
    (hf1 : foldsDisj r1 ("Maria Silva e Maria foram ao médico".toList) = true)
    (hf2 : foldsDisj r2 ("Maria Silva e Maria foram ao médico".toList) = true) :
    applyMapping
        ⟨[("Maria Silva".toList, r1), ("Maria".toList, r2)], [], [], []⟩
        ("Maria Silva e Maria foram ao médico".toList) =
      r1 ++ " e ".toList ++ r2 ++ " foram ao médico".toList ∧
    applyMapping
        ⟨[("Maria Silva".toList, r1), ("Maria".toList, r2)], [], [], []⟩
        ("Maria Silva e Maria Silva".toList) =
      r1 ++ " e ".toList ++ r1 ∧
    ¬ (r2 ++ " Silva".toList) <:+:
      applyMapping
        ⟨[("Maria Silva".toList, r1), ("Maria".toList, r2)], [], [], []⟩
        ("Maria Silva e Maria foram ao médico".toList) := by
  have hMS : ("Maria Silva".toList : Str) ≠ [] := by decide
  have hM : ("Maria".toList : Str) ≠ [] := by decide
  have hfd1 := foldsDisj_spec hf1
  have hfd2 := foldsDisj_spec hf2
  have hr1M : ∀ c ∈ r1, foldc c ∉ ("Maria".toList : Str).map foldc :=
    foldc_not_mem_sub (by decide) hfd1
  have hsort : sortByLenDesc [("Maria Silva".toList, r1), ("Maria".toList, r2)] =
      [("Maria Silva".toList, r1), ("Maria".toList, r2)] := rfl
  have hpass1 : rep true ("Maria Silva".toList) r1
      ("Maria Silva e Maria foram ao médico".toList) =
      r1 ++ " e Maria foram ao médico".toList := by
    rw [show ("Maria Silva e Maria foram ao médico".toList : Str) =
      "Maria Silva".toList ++ " e Maria foram ao médico".toList by decide]
    rw [rep_block hMS, rep_of_noMatch hMS (by decide)]
  have hpass2 : rep true ("Maria".toList) r2 (r1 ++ " e Maria foram ao médico".toList) =
      r1 ++ (" e ".toList ++ (r2 ++ " foram ao médico".toList)) := by
    rw [rep_skip hM _ hr1M]
    congr 1
  have hmain : applyMapping
      ⟨[("Maria Silva".toList, r1), ("Maria".toList, r2)], [], [], []⟩
      ("Maria Silva e Maria foram ao médico".toList) =
      r1 ++ (" e ".toList ++ (r2 ++ " foram ao médico".toList)) := by
    show applyCat true
      (sortByLenDesc [("Maria Silva".toList, r1), ("Maria".toList, r2)])
      ("Maria Silva e Maria foram ao médico".toList) = _
    rw [hsort]
    show rep true ("Maria".toList) r2
      (rep true ("Maria Silva".toList) r1
        ("Maria Silva e Maria foram ao médico".toList)) = _
    rw [hpass1, hpass2]
  refine ⟨by rw [hmain]; simp [List.append_assoc], ?_, ?_⟩
  · have hpass1b : rep true ("Maria Silva".toList) r1
        ("Maria Silva e Maria Silva".toList) =
        r1 ++ (' ' :: 'e' :: ' ' :: r1) := by
      rw [show ("Maria Silva e Maria Silva".toList : Str) =
        "Maria Silva".toList ++ (' ' :: 'e' :: ' ' :: "Maria Silva".toList) by decide]
      rw [rep_block hMS, rep_nomatch hMS (by decide), rep_nomatch hMS (by decide),
        rep_nomatch hMS (by decide), rep_self hMS]
    have hpass2b : rep true ("Maria".toList) r2 (r1 ++ (' ' :: 'e' :: ' ' :: r1)) =
        r1 ++ (' ' :: 'e' :: ' ' :: r1) := by
      rw [rep_skip hM _ hr1M]
      congr 1
      rw [show (' ' :: 'e' :: ' ' :: r1 : Str) = [' ', 'e', ' '] ++ r1 by rfl]
      rw [rep_skip hM _ (by decide), rep_noop hM hr1M]
    show rep true ("Maria".toList) r2
      (rep true ("Maria Silva".toList) r1 ("Maria Silva e Maria Silva".toList)) = _
    rw [hpass1b, hpass2b,
      show (' ' :: 'e' :: ' ' :: r1 : Str) = " e ".toList ++ r1 from rfl,
      ← List.append_assoc]
  · rw [hmain]
    intro hinf
    have hS : ('S' : Char) ∈
        r1 ++ (" e ".toList ++ (r2 ++ " foram ao médico".toList)) :=
      hinf.subset (List.mem_append.mpr (Or.inr (by decide)))
    rcases List.mem_append.mp hS with hr1m | hS2
    · exact hfd1 'S' hr1m (by decide)
    rcases List.mem_append.mp hS2 with he | hS3
    · exact absurd he (by decide)
    rcases List.mem_append.mp hS3 with hr2m | hrest
    · exact hfd2 'S' hr2m (by decide)
    · exact absurd hrest (by decide)

/-- Claim C4, witness: the substitution order at concrete fresh
replacements `"Qx"` and `"Zw"`. -/
theorem c4_substitution_order_witness :
    ("Qx".toList : Str) ≠ [] ∧ ("Zw".toList : Str) ≠ [] ∧
    foldsDisj ("Qx".toList) ("Maria Silva e Maria foram ao médico".toList) = true ∧
    foldsDisj ("Zw".toList) ("Maria Silva e Maria foram ao médico".toList) = true ∧
    applyMapping
        ⟨[("Maria Silva".toList, "Qx".toList), ("Maria".toList, "Zw".toList)],
          [], [], []⟩
        ("Maria Silva e Maria foram ao médico".toList) =
      "Qx".toList ++ " e ".toList ++ "Zw".toList ++ " foram ao médico".toList :=
  ⟨by decide, by decide, by decide, by decide,
    (c4_substitution_order ("Qx".toList) ("Zw".toList) (by decide) (by decide)
      (by decide) (by decide)).1⟩
